import Mathlib

/-!
Verification of the Liku trust-bounded orchestration engine.

A shallow embedding, in Lean 4, of the core components of the Liku
enterprise orchestration engine (privilege/skill model, plan validator,
task registry, concurrency limiter, skills loader, orchestrator), with
theorems settling the specification claims about them.

Machine integers from the TypeScript source are modelled as `Nat`
(they are only used as non-negative counts and list lengths here);
JavaScript strings are modelled as Lean `String` / `List Char`
(they agree on the ASCII fragment these components manipulate);
`undefined`-able fields are modelled as `Option`; JavaScript `Map`s are
modelled as association lists with JavaScript `Map` insertion-order
semantics (`mapSet` replaces in place, `mapGet` finds the unique entry).
-/

namespace Liku

/-! ## Privilege and capability model (skills/types.ts) -/

/-- Trust level of a residence: `user < specialist < root`. -/
inductive Privilege
  | user
  | specialist
  | root
deriving DecidableEq, Repr, Inhabited

/-- A capability that can be granted to an agent. -/
inductive Capability
  | read_repo
  | write_repo
  | execute_code
  | network_access
  | memory_write
  | escalate
  | invoke_subagent
deriving DecidableEq, Repr, Inhabited

/-- A declared skill (`LikuSkill` in skills/types.ts). Optional fields of the
TypeScript type are `Option`s. -/
structure LikuSkill where
  id : String
  description : Option String := none
  residencePath : String
  requiredPrivilege : Privilege
  requires : Option Capability := none
  escalateIfMissing : Option Bool := none
deriving DecidableEq, Repr, Inhabited

/-- `PRIVILEGE_CAPABILITIES` from skills/types.ts: capabilities granted
wholesale at each privilege level. -/
def PRIVILEGE_CAPABILITIES : Privilege → List Capability
  | .root => [.read_repo, .write_repo, .execute_code, .network_access,
              .memory_write, .escalate, .invoke_subagent]
  | .specialist => [.read_repo, .write_repo, .execute_code, .memory_write,
                    .invoke_subagent]
  | .user => [.read_repo]

/-- `hasCapability` from skills/types.ts. -/
def hasCapability (privilege : Privilege) (capability : Capability) : Bool :=
  (PRIVILEGE_CAPABILITIES privilege).contains capability

/-! ## Residence classification (skills/validator.ts, `getResidencePrivilege`)

JavaScript `String.prototype.includes` / `endsWith` are embedded as
executable searches over `List Char`, together with the propositional
characterisations used by the theorems. -/

/-- Executable test: `needle` is an initial run of `hay`
(JavaScript `startsWith` at position 0). -/
def leadsWith : List Char → List Char → Bool
  | [], _ => true
  | _ :: _, [] => false
  | a :: as, b :: bs => a = b && leadsWith as bs

/-- Executable test: `needle` occurs contiguously inside `hay`
(JavaScript `String.prototype.includes`). -/
def containsRun (hay needle : List Char) : Bool :=
  leadsWith needle hay ||
    match hay with
    | [] => false
    | _ :: t => containsRun t needle

/-- Executable test: `hay` ends with `needle`
(JavaScript `String.prototype.endsWith`). -/
def endsWithRun (hay needle : List Char) : Bool :=
  leadsWith needle (hay.drop (hay.length - needle.length)) &&
    decide (needle.length ≤ hay.length)

/-- `needle` occurs contiguously in `hay` (propositional form). -/
def OccursIn (needle hay : List Char) : Prop :=
  ∃ l r, hay = l ++ needle ++ r

/-- `hay` ends with `needle` (propositional form). -/
def EndsIn (needle hay : List Char) : Prop :=
  ∃ l, hay = l ++ needle

/-- `path.replace(/\\/g, "/")` — normalise Windows separators. -/
def normalizeSeps (s : List Char) : List Char :=
  s.map fun c => if c = '\\' then '/' else c

/-- `getResidencePrivilege` from skills/validator.ts, translated branch by
branch: substring test for `"/root"`, the special case for the bare
`"Liku"` root directory, then substring test for `"/specialist"`,
defaulting to `user`. -/
def getResidencePrivilege (residencePath : String) : Privilege :=
  let normalized := normalizeSeps residencePath.toList
  if containsRun normalized "/root".toList then .root
  else if normalized = "Liku".toList || endsWithRun normalized "/Liku".toList then .root
  else if containsRun normalized "/specialist".toList then .specialist
  else .user

/-- The classification described by the claim (and spec §3): split the path
into segments and look for a literal `root` / `specialist` segment.
This is the claim's semantics, written from its words, to be compared
against `getResidencePrivilege`. -/
def segmentClassify (residencePath : String) : Privilege :=
  let segments := (normalizeSeps residencePath.toList).splitOn '/'
  if segments.contains "root".toList then .root
  else if segments.contains "specialist".toList then .specialist
  else .user

/-! ## Skill execution validation (skills/validator.ts) -/

/-- Result of validating a skill for execution (`SkillValidationResult`). -/
inductive SkillValidationResult
  | allowed
  | missing_capability (capability : Capability) (escalate : Bool)
  | insufficient_privilege (required current : Privilege)
deriving DecidableEq, Repr, Inhabited

/-- `privilegeOrder` array from `validateSkillExecution`. -/
def privilegeOrder : List Privilege := [.user, .specialist, .root]

/-- `validateSkillExecution` from skills/validator.ts: privilege level
(via `indexOf` into `privilegeOrder`) is compared first; only then is the
optional required capability checked. -/
def validateSkillExecution (skill : LikuSkill) (currentPrivilege : Privilege) :
    SkillValidationResult :=
  let currentLevel := privilegeOrder.indexOf currentPrivilege
  let requiredLevel := privilegeOrder.indexOf skill.requiredPrivilege
  if currentLevel < requiredLevel then
    .insufficient_privilege skill.requiredPrivilege currentPrivilege
  else
    match skill.requires with
    | some c =>
        if !hasCapability currentPrivilege c then
          .missing_capability c (skill.escalateIfMissing.getD false)
        else .allowed
    | none => .allowed

/-- A skills index (`SkillsIndex` in skills/types.ts): the skill list plus the
by-id JavaScript `Map`, modelled as an insertion-ordered association list. -/
structure SkillsIndex where
  skills : List LikuSkill
  byId : List (String × LikuSkill)
deriving DecidableEq, Repr, Inhabited

/-- `SkillValidationReport` from skills/validator.ts; a `details` entry
`(skillId, result)` stands for the source's `{skillId, result}` record. -/
structure SkillValidationReport where
  totalSkills : Nat
  allowed : Nat
  blocked : Nat
  escalationRequired : Nat
  details : List (String × SkillValidationResult)
deriving DecidableEq, Repr, Inhabited

/-- One iteration of the `validateSkillsIndex` loop. -/
def reportStep (currentPrivilege : Privilege) (acc : SkillValidationReport)
    (skill : LikuSkill) : SkillValidationReport :=
  let result := validateSkillExecution skill currentPrivilege
  let acc := { acc with details := acc.details ++ [(skill.id, result)] }
  match result with
  | .allowed => { acc with allowed := acc.allowed + 1 }
  | .missing_capability _ true =>
      { acc with escalationRequired := acc.escalationRequired + 1 }
  | _ => { acc with blocked := acc.blocked + 1 }

/-- `validateSkillsIndex` from skills/validator.ts. -/
def validateSkillsIndex (skillsIndex : SkillsIndex) (currentPrivilege : Privilege) :
    SkillValidationReport :=
  { skillsIndex.skills.foldl (reportStep currentPrivilege)
      { totalSkills := 0, allowed := 0, blocked := 0, escalationRequired := 0,
        details := [] } with
    totalSkills := skillsIndex.skills.length }

/-- Spec-side numeric rank of the ordered privilege chain
`user < specialist < root` (claim wording), independent of the source's
`indexOf` encoding. -/
def Privilege.level : Privilege → Nat
  | .user => 0
  | .specialist => 1
  | .root => 2

/-! ## Claim C1: residence classification -/

/-- The root condition actually tested by `getResidencePrivilege`: the
separator-normalised path contains the substring `"/root"`, or is exactly
`"Liku"`, or ends with `"/Liku"`. -/
def RootPathCond (path : String) : Prop :=
  OccursIn "/root".toList (normalizeSeps path.toList) ∨
    normalizeSeps path.toList = "Liku".toList ∨
    EndsIn "/Liku".toList (normalizeSeps path.toList)

/-- The specialist condition actually tested by `getResidencePrivilege`. -/
def SpecialistPathCond (path : String) : Prop :=
  OccursIn "/specialist".toList (normalizeSeps path.toList)


/-! ## JavaScript values and error data (errors.ts)

`LikuErrorCode` is a TypeScript string-literal union; it is modelled as
`String`. `unknown` payloads (step inputs/outputs, error details) are
modelled by a JSON-like value type covering the object shapes this
program constructs. -/

/-- TypeScript `LikuErrorCode` string-literal union. -/
abbrev LikuErrorCode := String

/-- A JSON-like JavaScript value, for `unknown` payloads. -/
inductive JsValue
  | null
  | bool (b : Bool)
  | num (n : Int)
  | str (s : String)
  | arr (elems : List JsValue)
  | obj (fields : List (String × JsValue))
deriving Inhabited

/-- The data of a `LikuError` (errors.ts): code, message, optional details. -/
structure LikuErrorInfo where
  code : LikuErrorCode
  message : String
  details : Option JsValue := none
deriving Inhabited

/-! ## Orchestration data model (orchestrator/types.ts) -/

/-- A step in an orchestration plan (`PlanStep`). -/
structure PlanStep where
  id : String
  description : String
  agentResidence : String
  input : JsValue
  dependsOn : List String
  parallel : Bool
deriving Inhabited

/-- An escalation request proposed by the planner
(`PlannerEscalationRequest` in planValidator.ts); the constant
`kind: "escalation_requested"` tag is implicit in the type. -/
structure PlannerEscalationRequest where
  reason : String
  capability : Option Capability := none
  stepId : Option String := none
deriving DecidableEq, Repr, Inhabited

/-- Output of the planner (`PlannerOutput`), together with the optional
`escalationRequests` field of `ExtendedPlannerOutput` (planValidator.ts) —
TypeScript reads that field through a structural cast, so it lives on the
same runtime object and is modelled as an optional field here. -/
structure PlannerOutput where
  goalSummary : String
  steps : List PlanStep
  constraints : List String
  risks : List String
  escalationRequests : Option (List PlannerEscalationRequest) := none
deriving Inhabited

/-- Status of a step result. -/
inductive StepStatus
  | success
  | error
  | skipped
  | escalated
deriving DecidableEq, Repr, Inhabited

/-- Paper-trail file paths carried by step results and bundles. -/
structure PaperTrail where
  todoPath : String
  errorsPath : String
deriving DecidableEq, Repr, Inhabited

/-- Escalation information (`EscalationInfo`); `capability` is a plain
string in the TypeScript type. -/
structure EscalationInfo where
  missingSkill : String
  requestedAction : String
  residence : String
  policyRef : String
  suggestedAlternatives : List String
  capability : Option String := none
  skillDescription : Option String := none
deriving DecidableEq, Repr, Inhabited

/-- Result of a single step execution (`StepResult`). -/
structure StepResult where
  stepId : String
  agentResidence : String
  status : StepStatus
  output : Option JsValue := none
  error : Option LikuErrorInfo := none
  escalation : Option EscalationInfo := none
  durationMs : Nat
  paperTrail : PaperTrail
deriving Inhabited

/-- Final orchestration result envelope (`OrchestrationResult`). The
constructor `partialRun` stands for the source's `"partial"` kind (the
bare word is reserved in Lean). -/
inductive OrchestrationResult
  | ok (summary : String) (steps : List StepResult) (finalOutput : Option JsValue)
  | partialRun (summary : String) (steps : List StepResult)
      (partialOutput : Option JsValue) (pendingSteps : List String)
  | escalation (summary : String) (steps : List StepResult) (info : EscalationInfo)
  | error (code : LikuErrorCode) (message : String) (details : Option JsValue)
      (steps : List StepResult)
deriving Inhabited

/-- The `kind` discriminant string of an `OrchestrationResult`. -/
def OrchestrationResult.kind : OrchestrationResult → String
  | .ok .. => "ok"
  | .partialRun .. => "partial"
  | .escalation .. => "escalation"
  | .error .. => "error"

/-- The `steps` list carried by every `OrchestrationResult` variant. -/
def OrchestrationResult.steps : OrchestrationResult → List StepResult
  | .ok _ steps _ => steps
  | .partialRun _ steps _ _ => steps
  | .escalation _ steps _ => steps
  | .error _ _ _ steps => steps

/-- Orchestration configuration (`OrchestrationConfig`); the `AbortSignal`
is modelled by its presence. -/
structure OrchestrationConfig where
  maxConcurrency : Nat
  stepTimeoutMs : Nat
  totalTimeoutMs : Nat
  executeWithLlm : Bool
  abortOnError : Bool
  abortSignal : Option Unit := none
deriving DecidableEq, Repr, Inhabited

/-- `Partial<OrchestrationConfig>` — caller-supplied overrides. -/
structure PartialOrchestrationConfig where
  maxConcurrency : Option Nat := none
  stepTimeoutMs : Option Nat := none
  totalTimeoutMs : Option Nat := none
  executeWithLlm : Option Bool := none
  abortOnError : Option Bool := none
  abortSignal : Option Unit := none
deriving DecidableEq, Repr, Inhabited

/-- Options for event handling (`OrchestrationEventOptions`). The handler
function itself is external; `onEvent` records whether one is subscribed. -/
structure OrchestrationEventOptions where
  onEvent : Bool
  emitStepStarted : Option Bool := none
  emitStepCompleted : Option Bool := none
  emitEscalation : Option Bool := none
  emitElicitation : Option Bool := none
deriving DecidableEq, Repr, Inhabited

/-- Input to start an orchestration (`OrchestrationInput`). -/
structure OrchestrationInput where
  query : String
  startResidence : Option String := none
  plan : Option PlannerOutput := none
  config : Option PartialOrchestrationConfig := none
  events : Option OrchestrationEventOptions := none
deriving Inhabited

/-- Task lifecycle status. -/
inductive TaskStatus
  | pending
  | running
  | completed
  | failed
  | cancelled
deriving DecidableEq, Repr, Inhabited

/-- Task state tracked by the registry (`TaskState`). -/
structure TaskState where
  id : String
  createdAt : String
  updatedAt : String
  status : TaskStatus
  input : OrchestrationInput
  result : Option OrchestrationResult := none
  currentStep : Option String := none
deriving Inhabited

/-! ## JavaScript `Map` model

Association lists with JavaScript `Map` semantics: `mapGet` returns the
entry for a key, `mapSet` overwrites an existing entry in place (keeping
its insertion position) or appends a new one, `mapDelete` removes one. -/

def mapGet {β : Type} (m : List (String × β)) (k : String) : Option β :=
  match m with
  | [] => none
  | (k', v) :: rest => if k' = k then some v else mapGet rest k

def mapSet {β : Type} (m : List (String × β)) (k : String) (v : β) :
    List (String × β) :=
  match m with
  | [] => [(k, v)]
  | (k', v') :: rest =>
      if k' = k then (k, v) :: rest else (k', v') :: mapSet rest k v

def mapDelete {β : Type} (m : List (String × β)) (k : String) :
    List (String × β) :=
  match m with
  | [] => []
  | (k', v') :: rest =>
      if k' = k then rest else (k', v') :: mapDelete rest k

/-! ## Task registry (taskRegistry.ts)

The registry is the pair of the `tasks` map and the `abortControllers`
map (a controller is modelled by its aborted flag). Wall-clock ISO
timestamps (`isoNow()`) and generated UUIDs enter as explicit arguments. -/

/-- Registry state: `tasks` and `abortControllers` maps plus capacity. -/
structure TaskRegistryState where
  tasks : List (String × TaskState)
  aborted : List (String × Bool)
  maxTasks : Nat := 1000
deriving Inhabited

/-- Outcome of `setResult` (`SetResultOutcome`). -/
inductive SetResultOutcome
  | success (wasIdempotent : Bool)
  | failure (reason : String)
deriving DecidableEq, Repr, Inhabited

/-- `getOldestTask` from taskRegistry.ts: minimum by `createdAt`, first
encountered wins ties (strict `<` comparison). -/
def getOldestTask (reg : TaskRegistryState) : Option TaskState :=
  reg.tasks.foldl
    (fun oldest (_, task) =>
      match oldest with
      | none => some task
      | some o => if task.createdAt < o.createdAt then some task else some o)
    none

/-- `TaskRegistry.create`: evict the oldest task when at capacity, then
insert a fresh pending task with a new id and abort controller. -/
def TaskRegistry.create (reg : TaskRegistryState) (input : OrchestrationInput)
    (freshId now : String) : String × TaskRegistryState :=
  let reg :=
    if reg.tasks.length ≥ reg.maxTasks then
      match getOldestTask reg with
      | some oldest =>
          { reg with tasks := mapDelete reg.tasks oldest.id,
                     aborted := mapDelete reg.aborted oldest.id }
      | none => reg
    else reg
  let task : TaskState :=
    { id := freshId, createdAt := now, updatedAt := now, status := .pending,
      input := input }
  (freshId,
    { reg with tasks := mapSet reg.tasks freshId task,
               aborted := mapSet reg.aborted freshId false })

/-- `TaskRegistry.updateStatus`. -/
def TaskRegistry.updateStatus (reg : TaskRegistryState) (id : String)
    (status : TaskStatus) (currentStep : Option String) (now : String) :
    Bool × TaskRegistryState :=
  match mapGet reg.tasks id with
  | none => (false, reg)
  | some task =>
      let task :=
        { task with status := status, updatedAt := now,
                    currentStep := match currentStep with
                                   | some s => some s
                                   | none => task.currentStep }
      (true, { reg with tasks := mapSet reg.tasks id task })

/-- `TaskRegistry.setResult` from taskRegistry.ts: the idempotent terminal
transition. Terminal tasks that already carry a result are left untouched
with `wasIdempotent: true`; terminal tasks without a result fail with
`"already_terminal"`; otherwise the result is stored and the status is
derived from the result's kind. -/
def TaskRegistry.setResult (reg : TaskRegistryState) (id : String)
    (result : OrchestrationResult) (now : String) :
    SetResultOutcome × TaskRegistryState :=
  match mapGet reg.tasks id with
  | none => (.failure "not_found", reg)
  | some task =>
      let isTerminal := task.status = .completed ∨ task.status = .failed ∨
        task.status = .cancelled
      if isTerminal then
        if task.result.isSome then (.success true, reg)
        else (.failure "already_terminal", reg)
      else
        let task :=
          { task with result := some result,
                      status := if result.kind = "error" then .failed
                                else .completed,
                      updatedAt := now }
        (.success false, { reg with tasks := mapSet reg.tasks id task })

/-- `TaskRegistry.cancel`: valid only from `pending`/`running`; flips the
status to `cancelled` and aborts the task's controller. -/
def TaskRegistry.cancel (reg : TaskRegistryState) (id : String) (now : String) :
    Bool × TaskRegistryState :=
  match mapGet reg.tasks id with
  | none => (false, reg)
  | some task =>
      if task.status = .pending ∨ task.status = .running then
        let task := { task with status := .cancelled, updatedAt := now }
        (true, { reg with tasks := mapSet reg.tasks id task,
                          aborted := mapSet reg.aborted id true })
      else (false, reg)

/-! ## Plan validator (orchestrator/planValidator.ts)

`validatePlan` is embedded state-passingly: JavaScript
`Array.prototype.sort` sorts in place, so `checkParallelism` (which calls
`step.dependsOn.sort()`) returns the updated step list alongside its
verdict, and `validatePlan` returns the updated plan. The JavaScript
default sort comparator on strings (UTF-16 code-unit order) is modelled
by Lean's `String` order via a stable insertion sort; they agree on the
identifiers these components use. -/

/-- Constraints for plan validation (`PlanConstraints`). -/
structure PlanConstraints where
  maxSteps : Nat
  maxParallelism : Nat
  allowedCapabilities : List Capability
  allowEscalationRequests : Bool
  skillsIndex : Option SkillsIndex := none
deriving DecidableEq, Repr, Inhabited

/-- `Partial<PlanConstraints>` — caller-supplied overrides. -/
structure PartialPlanConstraints where
  maxSteps : Option Nat := none
  maxParallelism : Option Nat := none
  allowedCapabilities : Option (List Capability) := none
  allowEscalationRequests : Option Bool := none
  skillsIndex : Option SkillsIndex := none
deriving DecidableEq, Repr, Inhabited

/-- `DEFAULT_PLAN_CONSTRAINTS`. -/
def DEFAULT_PLAN_CONSTRAINTS : PlanConstraints :=
  { maxSteps := 20, maxParallelism := 5,
    allowedCapabilities := PRIVILEGE_CAPABILITIES .specialist,
    allowEscalationRequests := true }

/-- The spread `{ ...DEFAULT_PLAN_CONSTRAINTS, ...constraints }`. -/
def mergeConstraints (c : PartialPlanConstraints) : PlanConstraints :=
  { maxSteps := c.maxSteps.getD DEFAULT_PLAN_CONSTRAINTS.maxSteps,
    maxParallelism := c.maxParallelism.getD DEFAULT_PLAN_CONSTRAINTS.maxParallelism,
    allowedCapabilities :=
      c.allowedCapabilities.getD DEFAULT_PLAN_CONSTRAINTS.allowedCapabilities,
    allowEscalationRequests :=
      c.allowEscalationRequests.getD DEFAULT_PLAN_CONSTRAINTS.allowEscalationRequests,
    skillsIndex := c.skillsIndex }

/-- Result of plan validation; `reason` is the TypeScript
`PlanValidationError` string union. -/
inductive PlanValidationResult
  | valid
  | invalid (reason : String) (details : String)
deriving DecidableEq, Repr, Inhabited

/-- The string name of a capability (TypeScript capabilities are string
literals). -/
def capabilityName : Capability → String
  | .read_repo => "read_repo"
  | .write_repo => "write_repo"
  | .execute_code => "execute_code"
  | .network_access => "network_access"
  | .memory_write => "memory_write"
  | .escalate => "escalate"
  | .invoke_subagent => "invoke_subagent"

/-- Code-unit comparison of character lists (the JavaScript default sort
comparator and `<` on strings compare UTF-16 code units; Lean `Char`s are
Unicode scalar values, which order identically on the code points these
components use). -/
def charListLe : List Char → List Char → Bool
  | [], _ => true
  | _ :: _, [] => false
  | a :: as, b :: bs => if a = b then charListLe as bs else decide (a < b)

/-- JavaScript string `≤` by code units. -/
def jsStrLe (a b : String) : Bool :=
  charListLe a.toList b.toList

/-- `step.dependsOn.sort()` — the in-place JavaScript default sort,
modelled as a stable insertion sort by code-unit string order. -/
def sortDependsOn (s : PlanStep) : PlanStep :=
  { s with dependsOn :=
      List.insertionSort (fun a b => jsStrLe a b = true) s.dependsOn }

/-- One `dependencyGroups` update: `(get(key) ?? []).push(step); set(key, …)`. -/
def groupInsert (groups : List (String × List PlanStep)) (key : String)
    (s : PlanStep) : List (String × List PlanStep) :=
  mapSet groups key ((mapGet groups key).getD [] ++ [s])

/-- `checkParallelism` from planValidator.ts. The first loop sorts each
step's `dependsOn` in place while building the dependency groups (in
insertion order); the second loop reports the first group whose
`parallel`-marked steps exceed the cap. Returns the verdict together
with the (mutated) step list. -/
def checkParallelism (steps : List PlanStep) (maxParallelism : Nat) :
    PlanValidationResult × List PlanStep :=
  let sorted := steps.map sortDependsOn
  let groups := sorted.foldl
    (fun g s => groupInsert g (String.intercalate "," s.dependsOn) s) []
  match groups.find?
      (fun g => decide ((g.2.filter (·.parallel)).length > maxParallelism)) with
  | some (deps, group) =>
      (.invalid "too_much_parallelism"
        (toString (group.filter (·.parallel)).length ++
          " parallel steps with dependencies [" ++
          (if deps = "" then "none" else deps) ++ "], max allowed is " ++
          toString maxParallelism),
        sorted)
  | none => (.valid, sorted)

/-- The `stepMap` of `checkCircularDependencies`: a JavaScript `Map` built
from `(id, step)` pairs (later duplicates overwrite earlier ones). -/
def buildStepMap (steps : List PlanStep) : List (String × PlanStep) :=
  steps.foldl (fun m s => mapSet m s.id s) []

mutual

/-- The recursive `dfs` of `checkCircularDependencies`, with explicit
`visiting`/`visited` sets (insertion-ordered lists) and a fuel argument
standing in for the call stack; `planDfs_no_fuel_exhaustion` below shows
the fuel used by `checkCircularDependencies` is never exhausted, so the
fuel-0 branch is unreachable there. Returns the found cycle (if any) and
the updated sets. -/
def planDfs (stepMap : List (String × PlanStep)) (stepIds : List String) :
    Nat → String → List String → List String → List String →
    Option (List String) × List String × List String
  | 0, _, _, visiting, visited => (some [], visiting, visited)
  | fuel + 1, stepId, path, visiting, visited =>
      if stepId ∈ visiting then (some (path ++ [stepId]), visiting, visited)
      else if stepId ∈ visited then (none, visiting, visited)
      else
        match planDfsDeps stepMap stepIds fuel
            (match mapGet stepMap stepId with
             | some step => step.dependsOn
             | none => []) (path ++ [stepId]) (visiting ++ [stepId]) visited with
        | (some cycle, vg, vb) => (some cycle, vg, vb)
        | (none, vg, vb) => (none, vg.erase stepId, vb ++ [stepId])

/-- The `for (const dep of step.dependsOn)` loop of `dfs`: recurse into
dependencies that are ids of the plan, propagating the first found cycle. -/
def planDfsDeps (stepMap : List (String × PlanStep)) (stepIds : List String) :
    Nat → List String → List String → List String → List String →
    Option (List String) × List String × List String
  | _, [], _, visiting, visited => (none, visiting, visited)
  | fuel, dep :: rest, path, visiting, visited =>
      if dep ∈ stepIds then
        match planDfs stepMap stepIds fuel dep path visiting visited with
        | (some cycle, vg, vb) => (some cycle, vg, vb)
        | (none, vg, vb) => planDfsDeps stepMap stepIds fuel rest path vg vb
      else planDfsDeps stepMap stepIds fuel rest path visiting visited

end

/-- The `for (const step of steps)` loop of `checkCircularDependencies`,
threading the `visiting`/`visited` sets through the per-root searches. -/
def checkCircLoop (stepMap : List (String × PlanStep)) (stepIds : List String)
    (fuel : Nat) :
    List PlanStep → List String → List String → Option (List String)
  | [], _, _ => none
  | step :: rest, visiting, visited =>
      match planDfs stepMap stepIds fuel step.id [] visiting visited with
      | (some cycle, _, _) => some cycle
      | (none, vg, vb) => checkCircLoop stepMap stepIds fuel rest vg vb

/-- `checkCircularDependencies` from planValidator.ts. -/
def checkCircularDependencies (steps : List PlanStep) : PlanValidationResult :=
  let stepIds := (steps.map (·.id)).dedup
  let stepMap := buildStepMap steps
  match checkCircLoop stepMap stepIds (stepIds.length + 1) steps [] [] with
  | some cycle =>
      .invalid "circular_dependency"
        ("Circular dependency detected: " ++ String.intercalate " → " cycle)
  | none => .valid

/-- `checkMissingDependencies` from planValidator.ts. -/
def checkMissingDependencies (steps : List PlanStep) : PlanValidationResult :=
  let stepIds := (steps.map (·.id)).dedup
  match steps.findSome? (fun step =>
      (step.dependsOn.find? (fun dep => !stepIds.contains dep)).map
        (fun dep => (step.id, dep))) with
  | some (sid, dep) =>
      .invalid "missing_dependency"
        ("Step \"" ++ sid ++ "\" depends on \"" ++ dep ++
          "\" which does not exist in the plan")
  | none => .valid

/-- `validateStep` from planValidator.ts. The residence must start with
`"Liku/"`; of the capabilities implied by the residence's privilege, only
`escalate` and `network_access` outside the allowed set are rejected
(the source's commented-out skills-index check is a no-op). -/
def validateStep (step : PlanStep) (cfg : PlanConstraints) :
    PlanValidationResult :=
  let privilege := getResidencePrivilege step.agentResidence
  if !leadsWith "Liku/".toList step.agentResidence.toList then
    .invalid "invalid_residence"
      ("Step \"" ++ step.id ++ "\" has invalid residence \"" ++
        step.agentResidence ++ "\" - must be under Liku/")
  else
    let residenceCapabilities := PRIVILEGE_CAPABILITIES privilege
    match residenceCapabilities.find? (fun cap =>
        !cfg.allowedCapabilities.contains cap &&
          (cap = .escalate || cap = .network_access)) with
    | some cap =>
        .invalid "unauthorized_capability"
          ("Step \"" ++ step.id ++ "\" at residence \"" ++
            step.agentResidence ++ "\" would use capability \"" ++
            capabilityName cap ++ "\" which is not authorized")
    | none => .valid

/-- `validatePlan` from planValidator.ts, with the post-call plan (whose
steps may have had their `dependsOn` arrays sorted in place by
`checkParallelism`) returned alongside the verdict. The checks run in
source order and short-circuit: step count, parallelism, cycles, missing
dependencies, per-step authorisation, escalation requests. An
`escalationRequests` field that is present (even as an empty array) is
truthy in JavaScript. -/
def validatePlan (plan : PlannerOutput)
    (constraints : PartialPlanConstraints := {}) :
    PlanValidationResult × PlannerOutput :=
  let cfg := mergeConstraints constraints
  if plan.steps.length > cfg.maxSteps then
    (.invalid "too_many_steps"
      ("Plan has " ++ toString plan.steps.length ++
        " steps, max allowed is " ++ toString cfg.maxSteps), plan)
  else
    match checkParallelism plan.steps cfg.maxParallelism with
    | (parRes, steps2) =>
      let plan2 := { plan with steps := steps2 }
      match parRes with
      | .invalid r d => (.invalid r d, plan2)
      | .valid =>
        match checkCircularDependencies steps2 with
        | .invalid r d => (.invalid r d, plan2)
        | .valid =>
          match checkMissingDependencies steps2 with
          | .invalid r d => (.invalid r d, plan2)
          | .valid =>
            match steps2.findSome? (fun step =>
                match validateStep step cfg with
                | .invalid r d => some (r, d)
                | .valid => none) with
            | some (r, d) => (.invalid r d, plan2)
            | none =>
              if plan2.escalationRequests.isSome &&
                  !cfg.allowEscalationRequests then
                (.invalid "unauthorized_escalation"
                  "Planner requested escalation but escalation requests are not allowed in this context",
                  plan2)
              else (.valid, plan2)

/-- `constraintsFromPrivilege` from planValidator.ts. -/
def constraintsFromPrivilege (privilege : Privilege) : PlanConstraints :=
  { maxSteps := if privilege = .root then 50
                else if privilege = .specialist then 20 else 5,
    maxParallelism := if privilege = .root then 10 else 5,
    allowedCapabilities := PRIVILEGE_CAPABILITIES privilege,
    allowEscalationRequests := privilege ≠ .user }

/-- The dependency edge relation of a plan, restricted to ids present in
the plan (spec-side notion used by claim C5): `a` depends on `b`. -/
def PlanEdge (steps : List PlanStep) (a b : String) : Prop :=
  ∃ s ∈ steps, s.id = a ∧ b ∈ s.dependsOn ∧ b ∈ steps.map PlanStep.id

/-- A cycle in the dependency relation: a nonempty closed edge walk
`a → … → a` (spec-side notion used by claim C5). -/
def PlanHasCycle (steps : List PlanStep) : Prop :=
  ∃ a ws, List.Chain' (PlanEdge steps) (a :: ws ++ [a])

/-- The edge relation traversed by the embedded DFS: step lookup through
the `stepMap`, restricted to ids in `stepIds`. With unique step ids this
coincides with `PlanEdge` (see `mEdge_iff_planEdge`). -/
def MEdge (M : List (String × PlanStep)) (S : List String) (a b : String) :
    Prop :=
  ∃ st, mapGet M a = some st ∧ b ∈ st.dependsOn ∧ b ∈ S

/-- Every dependency of a finished (black) node finished strictly earlier:
the invariant of the DFS `visited` list that makes a valid verdict imply
acyclicity. -/
def GoodList (E : String → String → Prop) (vb : List String) : Prop :=
  ∀ l a r, vb = l ++ a :: r → ∀ b, E a b → b ∈ l

/-! ## Skills loader (skills/loader.ts, skills/skillsXml.ts)

Paths are modelled as resolved segment lists (`path.resolve` — the walk
operates on resolved paths; `path.dirname` drops the last segment). The
filesystem and the XML parsing of each `skills.xml` file (fast-xml-parser
is an external library) are abstracted into a map from a directory to the
list of parsed skill entries `loadSkillsXml` would produce for its
`skills.xml`, `none` when the file does not exist; the entries carry the
normalised optional fields, and the loader attaches each file's
directory as the `residencePath`. The source sorts the final list with
`localeCompare`; it is modelled as code-unit order (`jsStrLe`), which
agrees with the default collation on the lowercase identifiers these
files use. -/

/-- A parsed skill entry of a `skills.xml` file, before the loader
attaches the residence path. -/
structure SkillEntry where
  id : String
  description : Option String := none
  requiredPrivilege : Privilege
  requires : Option Capability := none
  escalateIfMissing : Option Bool := none
deriving DecidableEq, Repr, Inhabited

/-- The abstract filesystem: parsed `skills.xml` content per directory. -/
def SkillsFs : Type := List String → Option (List SkillEntry)

/-- `path.dirname` on a resolved segment path. -/
def dirName (dir : List String) : List String := dir.dropLast

/-- Render a segment path as the `residencePath` string. -/
def renderPath (dir : List String) : String := String.intercalate "/" dir

/-- The skill built from an entry of the file in `fileDir`
(`loadSkillsXml` sets `residencePath` to the file's directory). -/
def mkSkill (e : SkillEntry) (fileDir : List String) : LikuSkill :=
  { id := e.id, description := e.description,
    residencePath := renderPath fileDir,
    requiredPrivilege := e.requiredPrivilege, requires := e.requires,
    escalateIfMissing := e.escalateIfMissing }

/-- `findSkillsXmlFiles` from skillsXml.ts, returning the directories of
the found `skills.xml` files, from the residence up to `stopAtDir`
inclusive (stopping at the filesystem root). -/
def findSkillsXmlFiles (fs : SkillsFs) (stopAtDir : List String)
    (fromDir : List String) : List (List String) :=
  (if (fs fromDir).isSome then [fromDir] else []) ++
    (if fromDir = stopAtDir then []
     else if dirName fromDir = fromDir then []
     else findSkillsXmlFiles fs stopAtDir (dirName fromDir))
termination_by fromDir.length
decreasing_by
  rename_i h2
  have hne : fromDir ≠ [] := by
    intro h
    exact h2 (by simp [dirName, h])
  simp only [dirName, List.length_dropLast]
  have := List.length_pos.mpr hne
  omega

/-- `loadInheritedSkills` from loader.ts: walk up collecting files,
process them ancestor-first (`files.reverse()`), let children override
by id via `Map.set`, then list the values sorted by id. -/
def loadInheritedSkills (fs : SkillsFs)
    (residenceDir likuRootDir : List String) : SkillsIndex :=
  let files := findSkillsXmlFiles fs likuRootDir residenceDir
  let byId := (files.reverse).foldl
    (fun m fileDir => ((fs fileDir).getD []).foldl
      (fun m e => mapSet m e.id (mkSkill e fileDir)) m) []
  let skills := List.insertionSort (fun a b => jsStrLe a.id b.id = true)
    (byId.map Prod.snd)
  { skills := skills, byId := byId }

/-- The last entry with a given id in a file's entry list — the one whose
`Map.set` wins within a single file. -/
def lastEntryWithId (entries : List SkillEntry) (X : String) :
    Option SkillEntry :=
  (entries.filter (fun e => e.id = X)).getLast?

/-- The spec-side lexicographic order on strings used to state claim C6's
ordering invariant. -/
def LexLeStr (a b : String) : Prop :=
  a.toList = b.toList ∨ List.Lex (· < ·) a.toList b.toList

/-- Fixture filesystem: the same skill id declared at the trust root and,
with a different privilege, at the leaf residence. -/
def overrideFs : SkillsFs := fun d =>
  if d = ["Liku"] then
    some [{ id := "X", requiredPrivilege := .root }]
  else if d = ["Liku", "specialist"] then
    some [{ id := "X", requiredPrivilege := .specialist }]
  else none

/-! ## Concurrency limiter (utils/concurrencyLimiter.ts)

The limiter is asynchronous code on the JavaScript event loop; its state
changes happen in three kinds of atomic synchronous blocks, modelled as
transitions of a labelled transition system. Tasks are identified by
indices into a phase list.

* `submit i` — `run(task)` is called for task `i` and executes its
  synchronous prefix: if `currentCount < maxConcurrent` it increments the
  count and starts the task, otherwise `waitForSlot` appends a waiter to
  the FIFO queue (source lines 73–79 and 108–130).
* `finish i threw` — task `i`'s promise settles (the `finally` block runs
  whether the task fulfilled or threw, so `threw` does not affect the
  transition): `currentCount--`, then the earliest queued waiter, if any,
  is dequeued and resolved (lines 82–92).
* `resume i` — the microtask continuation of resolved waiter `i` runs:
  `currentCount++` (without re-checking capacity) and the task starts
  (line 79, after `await this.waitForSlot()` returns).

Between two atomic blocks the event loop may run arbitrary other code —
in particular a fresh `run` call can execute between a `finish` that
resolves a waiter and that waiter's `resume` microtask — so the system
allows any interleaving that respects each task's own order. With the
`ConcurrencyLimiter(n)` constructor `queueTimeoutMs` is 0, so the queue
timeout and `clearQueue` paths never fire and are not modelled. -/

/-- Lifecycle phase of one task submitted to the limiter. -/
inductive TaskPhase
  | notSubmitted
  | queued
  | resolvedWaiting
  | running
  | finished
deriving DecidableEq, Repr, Inhabited

/-- Limiter state: `maxConcurrent`, `currentCount`, the FIFO `queue` of
waiter task indices, and each task's phase. -/
structure LimiterState where
  maxConcurrent : Nat
  currentCount : Nat
  queue : List Nat
  phases : List TaskPhase
deriving DecidableEq, Repr, Inhabited

/-- The phase of task `i`. -/
def phaseOf (s : LimiterState) (i : Nat) : TaskPhase :=
  s.phases.getD i .notSubmitted

/-- Set the phase of task `i`. -/
def setPhase (s : LimiterState) (i : Nat) (p : TaskPhase) : LimiterState :=
  { s with phases := s.phases.set i p }

/-- An atomic event-loop block of the limiter. -/
inductive LimiterEvent
  | submit (i : Nat)
  | finish (i : Nat) (threw : Bool)
  | resume (i : Nat)
deriving DecidableEq, Repr, Inhabited

/-- One atomic block of `ConcurrencyLimiter`, as a guarded transition:
`none` when the event's precondition does not hold in `s`. -/
def limiterStep (s : LimiterState) : LimiterEvent → Option LimiterState
  | .submit i =>
      if phaseOf s i = .notSubmitted then
        if s.currentCount ≥ s.maxConcurrent then
          some { setPhase s i .queued with queue := s.queue ++ [i] }
        else
          some { setPhase s i .running with currentCount := s.currentCount + 1 }
      else none
  | .finish i _threw =>
      if phaseOf s i = .running then
        let s1 := { s with currentCount := s.currentCount - 1 }
        match s1.queue with
        | [] => some (setPhase s1 i .finished)
        | w :: rest =>
            some (setPhase (setPhase { s1 with queue := rest }
              w .resolvedWaiting) i .finished)
      else none
  | .resume i =>
      if phaseOf s i = .resolvedWaiting then
        some { setPhase s i .running with currentCount := s.currentCount + 1 }
      else none

/-- Run a sequence of atomic blocks from a state; `none` if any event's
precondition fails (the trace is not a real event-loop schedule). -/
def runTrace (s : LimiterState) : List LimiterEvent → Option LimiterState
  | [] => some s
  | e :: es =>
      match limiterStep s e with
      | some s2 => runTrace s2 es
      | none => none

/-- Initial limiter state for `ConcurrencyLimiter(n)` with `numTasks`
tasks about to be submitted. -/
def initLimiter (n numTasks : Nat) : LimiterState :=
  { maxConcurrent := n, currentCount := 0, queue := [],
    phases := List.replicate numTasks .notSubmitted }

/-! ## Orchestrator (orchestrator/orchestrator.ts)

The orchestrator's effectful collaborators enter through an explicit
environment `OrchEnv`: the engine's `invokeAgent` of engine.ts (its
body is filesystem/database I/O — path normalization, skill loading
from skills.xml files, paper-trail creation, memory logging, prompt
assembly — so the environment abstracts it as a function from the step
to the bundle it resolves or the `LikuError` it throws, while the
`invokeAgentSafe` try/catch wrapper around it is embedded below), the
LLM client, frozen wall-clock readings (the per-step total-timeout
comparison of `Date.now()` readings is abstracted into a per-step
Boolean outcome, and durations into a per-step value), task-id
generation, and a hook `pipelineThrow` modelling a JavaScript exception
surfacing from the awaited machinery inside `run`'s try block at the
plan-execution stage (nothing in the embedded code itself throws; the
hook gives the `catch` its semantics). Event emission appends to an
event log: `emitEvent`'s `queueMicrotask` dispatch isolates handler
errors and latency from orchestration, so delivery to a subscribed
handler is modelled as the append itself. For a parallel batch the
`step_started`/`step_completed` events of concurrently in-flight steps
interleave arbitrarily in reality; the log keeps batch order, and the
theorems below do not rely on step-event order. -/

/-- The assembled prompt text of a bundle (`AgentBundle.prompts`,
engine.ts). -/
structure AgentPrompts where
  system : String
  instructions : String
deriving DecidableEq, Repr, Inhabited

/-- `AgentBundle` from engine.ts: the residence (relative, normalized),
the resolved skill list, the paper-trail file paths, and the assembled
prompts. -/
structure AgentBundle where
  agentResidence : String
  skills : List LikuSkill
  paperTrail : PaperTrail
  prompts : AgentPrompts
deriving DecidableEq, Repr, Inhabited

/-- `InvokeResult` from errors.ts, instantiated at agent bundles. The
type has an escalation variant (and the orchestrator's `runStep`
matches on it), but the engine's `invokeAgentSafe` never constructs
it — see `invokeAgentSafe` below. -/
inductive InvokeAgentResult
  | ok (bundle : AgentBundle)
  | escalation (missingSkill requestedAction residence policyRef : String)
  | error (code : LikuErrorCode) (message : String) (details : Option JsValue)
deriving Inhabited

/-- The orchestrator's environment of effectful collaborators.
`invokeAgent` abstracts `LikuEngine.invokeAgent` (engine.ts), which
either resolves a bundle or throws a `LikuError`; `llmGenerate`
abstracts `llmClient.generate` on the `LlmInput` built from the step's
bundle, yielding the response text or the error the try/catch around
`runStep`'s body converts via `toLikuError`. -/
structure OrchEnv where
  invokeAgent : PlanStep → Except LikuErrorInfo AgentBundle
  llmConfigured : Bool
  llmGenerate : PlanStep → AgentBundle → Except LikuErrorInfo String
  timeExceeded : PlanStep → Bool
  durationOf : PlanStep → Nat
  now : String
  freshTaskId : String
  runDurationMs : Nat
  pipelineThrow : Option LikuErrorInfo

/-- `LikuEngine.invokeAgentSafe` from engine.ts: `invokeAgent` wrapped in
try/catch — the bundle as `okResult`, a thrown error as `errorResult`
via `toLikuError`. It never returns the escalation kind of
`InvokeResult`, so the orchestrator's engine-escalation branch in
`runStep` is unreachable against this engine. -/
def invokeAgentSafe (env : OrchEnv) (step : PlanStep) : InvokeAgentResult :=
  match env.invokeAgent step with
  | .ok bundle => .ok bundle
  | .error e => .error e.code e.message e.details

/-- Orchestration events (orchestrator/types.ts), with the payload fields
the source constructs. -/
inductive OrchestrationEvent
  | step_started (timestamp taskId stepId agentResidence description : String)
  | step_completed (timestamp taskId stepId agentResidence : String)
      (status : StepStatus) (durationMs : Nat)
      (error : Option (LikuErrorCode × String))
      (escalation : Option EscalationInfo)
  | escalation (timestamp taskId stepId : String) (info : EscalationInfo)
  | elicitation (timestamp taskId stepId question context : String)
      (choices : Option (List String))
  | run_started (timestamp taskId query startResidence : String)
  | run_completed (timestamp taskId : String) (resultKind : String)
      (totalSteps successfulSteps durationMs : Nat)
deriving DecidableEq, Repr, Inhabited

/-- The `typeToOption` filter of `emitEvent`: the per-type enable option,
`none` for the always-emitted `run_started`/`run_completed`. -/
def eventTypeOption (o : OrchestrationEventOptions) :
    OrchestrationEvent → Option (Option Bool)
  | .step_started .. => some o.emitStepStarted
  | .step_completed .. => some o.emitStepCompleted
  | .escalation .. => some o.emitEscalation
  | .elicitation .. => some o.emitElicitation
  | .run_started .. => none
  | .run_completed .. => none

/-- `emitEvent` from orchestrator.ts: no handler or a disabled event type
means no delivery; otherwise the event is delivered (the microtask
dispatch swallows handler errors, never affecting orchestration). -/
def emitEvent (options : Option OrchestrationEventOptions)
    (event : OrchestrationEvent) (log : List OrchestrationEvent) :
    List OrchestrationEvent :=
  match options with
  | none => log
  | some o =>
      if !o.onEvent then log
      else
        match eventTypeOption o event with
        | some (some false) => log
        | _ => log ++ [event]

/-- The string name of a privilege (TypeScript privileges are string
literals). -/
def privilegeName : Privilege → String
  | .user => "user"
  | .specialist => "specialist"
  | .root => "root"

/-- JSON rendering of a skill, for the opaque `unknown` payloads that
carry bundles (optional fields present only when declared, as in the
parsed skills.xml data). -/
def encodeSkill (s : LikuSkill) : JsValue :=
  .obj ([("id", .str s.id)] ++
    (match s.description with
     | some d => [("description", .str d)]
     | none => []) ++
    [("residencePath", .str s.residencePath),
     ("requiredPrivilege", .str (privilegeName s.requiredPrivilege))] ++
    (match s.requires with
     | some c => [("requires", .str (capabilityName c))]
     | none => []) ++
    (match s.escalateIfMissing with
     | some b => [("escalateIfMissing", .bool b)]
     | none => []))

/-- JSON rendering of a bundle: step outputs hold the bundle object as an
opaque `unknown` value, modelled by its JSON rendering. -/
def encodeBundle (b : AgentBundle) : JsValue :=
  .obj [("agentResidence", .str b.agentResidence),
        ("skills", .arr (b.skills.map encodeSkill)),
        ("paperTrail", .obj [("todoPath", .str b.paperTrail.todoPath),
                             ("errorsPath", .str b.paperTrail.errorsPath)]),
        ("prompts", .obj [("system", .str b.prompts.system),
                          ("instructions", .str b.prompts.instructions)])]

/-- `checkForEscalation` from orchestrator.ts: build a skills index from
the bundle, validate it against the residence-derived privilege, and
surface the first escalatable `missing_capability` violation, else the
first `insufficient_privilege` violation. -/
def checkForEscalation (bundle : AgentBundle) (step : PlanStep) :
    Option EscalationInfo :=
  let privilege := getResidencePrivilege step.agentResidence
  let skillsIndex : SkillsIndex :=
    { skills := bundle.skills,
      byId := bundle.skills.foldl (fun m s => mapSet m s.id s) [] }
  let report := validateSkillsIndex skillsIndex privilege
  let fromMissing :=
    if report.escalationRequired > 0 then
      match report.details.find? (fun d =>
          match d.2 with
          | .missing_capability _ true => true
          | _ => false) with
      | some (skillId, .missing_capability cap _) =>
          let skill := mapGet skillsIndex.byId skillId
          some { missingSkill := skillId,
                 requestedAction := step.description,
                 residence := step.agentResidence,
                 policyRef := "Liku/root/policy.md",
                 suggestedAlternatives :=
                   ["Request '" ++ capabilityName cap ++
                      "' capability from root supervisor",
                    "Use alternative skill with lower privilege requirement",
                    "Decompose task to avoid privileged operation"],
                 capability := some (capabilityName cap),
                 skillDescription :=
                   (skill.bind LikuSkill.description).filter (· ≠ "") }
      | _ => none
    else none
  match fromMissing with
  | some info => some info
  | none =>
      if report.blocked > 0 then
        match report.details.find? (fun d =>
            match d.2 with
            | .insufficient_privilege _ _ => true
            | _ => false) with
        | some (skillId, .insufficient_privilege required current) =>
            some { missingSkill := skillId,
                   requestedAction := step.description,
                   residence := step.agentResidence,
                   policyRef := "Liku/root/policy.md",
                   suggestedAlternatives :=
                     ["Current privilege '" ++ privilegeName current ++
                        "' insufficient, requires '" ++
                        privilegeName required ++ "'",
                      "Execute from a higher-privilege residence",
                      "Request root approval for this operation"] }
        | _ => none
      else none

/-- `runStep` from orchestrator.ts: total-timeout check, engine
invocation via `invokeAgentSafe`, escalation check, then LLM or
bundle-only execution. The try/catch around the body is represented by
the error cases of `invokeAgentSafe` (which itself never throws) and
`llmGenerate`. The `usage` payload of an LLM response is abstracted
away. -/
def runStep (env : OrchEnv) (step : PlanStep) (config : OrchestrationConfig) :
    StepResult :=
  if env.timeExceeded step then
    { stepId := step.id, agentResidence := step.agentResidence,
      status := .error,
      error := some { code := "INTERNAL",
                      message := "Orchestration timeout exceeded" },
      durationMs := env.durationOf step,
      paperTrail := { todoPath := "", errorsPath := "" } }
  else
    match invokeAgentSafe env step with
    | .error code message details =>
        { stepId := step.id, agentResidence := step.agentResidence,
          status := .error,
          error := some { code := code, message := message, details := details },
          durationMs := env.durationOf step,
          paperTrail := { todoPath := "", errorsPath := "" } }
    | .escalation missingSkill requestedAction residence policyRef =>
        { stepId := step.id, agentResidence := step.agentResidence,
          status := .escalated,
          escalation := some { missingSkill := missingSkill,
                               requestedAction := requestedAction,
                               residence := residence, policyRef := policyRef,
                               suggestedAlternatives := [] },
          durationMs := env.durationOf step,
          paperTrail := { todoPath := "", errorsPath := "" } }
    | .ok bundle =>
        match checkForEscalation bundle step with
        | some escalation =>
            { stepId := step.id, agentResidence := step.agentResidence,
              status := .escalated, escalation := some escalation,
              durationMs := env.durationOf step,
              paperTrail := bundle.paperTrail }
        | none =>
            if config.executeWithLlm && env.llmConfigured then
              match env.llmGenerate step bundle with
              | .ok text =>
                  { stepId := step.id, agentResidence := step.agentResidence,
                    status := .success,
                    output := some (.obj [("llmResponse", .str text),
                      ("bundle", encodeBundle bundle)]),
                    durationMs := env.durationOf step,
                    paperTrail := bundle.paperTrail }
              | .error e =>
                  { stepId := step.id, agentResidence := step.agentResidence,
                    status := .error, error := some e,
                    durationMs := env.durationOf step,
                    paperTrail := { todoPath := "", errorsPath := "" } }
            else
              { stepId := step.id, agentResidence := step.agentResidence,
                status := .success,
                output := some (.obj [("bundleOnly", .bool true),
                  ("bundle", encodeBundle bundle)]),
                durationMs := env.durationOf step,
                paperTrail := bundle.paperTrail }

/-- `getDefaultConfig` from orchestrator.ts; `executeWithLlm` mirrors
`this.llmClient.isConfigured()`. -/
def getDefaultConfig (env : OrchEnv) : OrchestrationConfig :=
  { maxConcurrency := 5, stepTimeoutMs := 60000, totalTimeoutMs := 300000,
    executeWithLlm := env.llmConfigured, abortOnError := true }

/-- The spread `{ ...getDefaultConfig(), ...input.config }`: fields present
in the partial override the defaults. -/
def mergeOrchConfig (base : OrchestrationConfig)
    (o : Option PartialOrchestrationConfig) : OrchestrationConfig :=
  match o with
  | none => base
  | some p =>
      { maxConcurrency := p.maxConcurrency.getD base.maxConcurrency,
        stepTimeoutMs := p.stepTimeoutMs.getD base.stepTimeoutMs,
        totalTimeoutMs := p.totalTimeoutMs.getD base.totalTimeoutMs,
        executeWithLlm := p.executeWithLlm.getD base.executeWithLlm,
        abortOnError := p.abortOnError.getD base.abortOnError,
        abortSignal := match p.abortSignal with
                       | some s => some s
                       | none => base.abortSignal }

/-- A string field of a JSON object, with a default for absent or
non-string values. -/
def jsGetStr (fields : List (String × JsValue)) (key dflt : String) : String :=
  match mapGet fields key with
  | some (.str s) => s
  | _ => dflt

/-- A string-array field of a JSON object. -/
def jsGetStrList (fields : List (String × JsValue)) (key : String) :
    List String :=
  match mapGet fields key with
  | some (.arr xs) =>
      xs.filterMap (fun v => match v with | .str s => some s | _ => none)
  | _ => []

/-- A boolean field of a JSON object, false when absent. -/
def jsGetBool (fields : List (String × JsValue)) (key : String) : Bool :=
  match mapGet fields key with
  | some (.bool b) => b
  | _ => false

/-- Structural reading of a `PlanStep` out of a JSON object value. -/
def decodePlanStep (v : JsValue) : Option PlanStep :=
  match v with
  | .obj f =>
      match mapGet f "id", mapGet f "agentResidence" with
      | some (.str stepId), some (.str residence) =>
          some { id := stepId, description := jsGetStr f "description" "",
                 agentResidence := residence,
                 input := (mapGet f "input").getD .null,
                 dependsOn := jsGetStrList f "dependsOn",
                 parallel := jsGetBool f "parallel" }
      | _, _ => none
  | _ => none

/-- Models the TypeScript cast `output as PlannerOutput` taken when the
output object has a `goalSummary` key: in JavaScript the cast is the
identity on the underlying object, read here structurally field by
field. For every output this program's own steps produce the branch is
unreachable (their outputs never carry a `goalSummary` key). -/
def decodePlannerFields (fields : List (String × JsValue)) : PlannerOutput :=
  { goalSummary := jsGetStr fields "goalSummary" "",
    steps := (match mapGet fields "steps" with
              | some (.arr xs) => xs.filterMap decodePlanStep
              | _ => []),
    constraints := jsGetStrList fields "constraints",
    risks := jsGetStrList fields "risks" }

/-- The default single-specialist plan of `parsePlannerOutput`; the
planner's raw output becomes the step input (`.null` standing for
JavaScript `undefined` when the planner produced no output). -/
def defaultTsPlan (output : Option JsValue) : PlannerOutput :=
  { goalSummary := "Execute task with TypeScript specialist",
    steps := [{ id := "ts-execution",
                description := "Execute TypeScript task",
                agentResidence := "Liku/specialist/ts",
                input := output.getD .null,
                dependsOn := [], parallel := false }],
    constraints := [], risks := [] }

/-- `parsePlannerOutput` from orchestrator.ts: a non-null object with a
`goalSummary` key is used as the plan (the cast), anything else yields
the default single-step TypeScript plan. -/
def parsePlannerOutput (output : Option JsValue) : PlannerOutput :=
  match output with
  | some (.obj fields) =>
      if (fields.map Prod.fst).contains "goalSummary" then
        decodePlannerFields fields
      else defaultTsPlan output
  | _ => defaultTsPlan output

/-- `runStepWithEvents` from orchestrator.ts: step_started, the step, then
step_completed (with error/escalation payload when present), then an
escalation event when the step escalated. -/
def runStepWithEvents (env : OrchEnv) (config : OrchestrationConfig)
    (taskId : String) (options : Option OrchestrationEventOptions)
    (step : PlanStep) (log : List OrchestrationEvent) :
    StepResult × List OrchestrationEvent :=
  let log := emitEvent options
    (.step_started env.now taskId step.id step.agentResidence
      step.description) log
  let result := runStep env step config
  let log := emitEvent options
    (.step_completed env.now taskId step.id step.agentResidence
      result.status result.durationMs
      (result.error.map (fun e => (e.code, e.message))) result.escalation) log
  let log :=
    if result.status = .escalated then
      match result.escalation with
      | some esc => emitEvent options (.escalation env.now taskId step.id esc) log
      | none => log
    else log
  (result, log)

/-- The `completed.add(id)` of the execution loop (`completed` is a `Set`,
so the list stays duplicate-free and its length is the set's size). -/
def addCompleted (completed : List String) (i : String) : List String :=
  if completed.contains i then completed else completed ++ [i]

/-- The `readySteps()` closure of `executeStepsWithEvents`: steps not yet
completed whose dependencies are all completed. -/
def readyPlanSteps (steps : List PlanStep) (completed : List String) :
    List PlanStep :=
  steps.filter (fun s =>
    !completed.contains s.id && s.dependsOn.all completed.contains)

/-- The sequential for-loop of one batch: run each step, record it, and
abort on error when configured (the trailing Bool reports the abort). -/
def seqRunSteps (env : OrchEnv) (config : OrchestrationConfig)
    (taskId : String) (options : Option OrchestrationEventOptions) :
    List PlanStep → List StepResult → List String → List OrchestrationEvent →
    List StepResult × List String × List OrchestrationEvent × Bool
  | [], results, completed, log => (results, completed, log, false)
  | step :: rest, results, completed, log =>
      let r := runStepWithEvents env config taskId options step log
      let results := results ++ [r.1]
      let completed := addCompleted completed step.id
      if r.1.status = .error ∧ config.abortOnError = true then
        (results, completed, r.2, true)
      else seqRunSteps env config taskId options rest results completed r.2

/-- The parallel batch: every step runs (no early abort inside the batch,
mirroring `Promise.all` over already-started tasks); results keep batch
order. Step events of concurrently running steps interleave arbitrarily
in reality; the log keeps batch order, which no theorem below relies on. -/
def parRunSteps (env : OrchEnv) (config : OrchestrationConfig)
    (taskId : String) (options : Option OrchestrationEventOptions)
    (batch : List PlanStep) (log : List OrchestrationEvent) :
    List StepResult × List OrchestrationEvent :=
  batch.foldl
    (fun acc step =>
      (acc.1 ++ [(runStepWithEvents env config taskId options step acc.2).1],
       (runStepWithEvents env config taskId options step acc.2).2))
    ([], log)

/-- The while-loop of `executeStepsWithEvents`, with fuel bounding the
number of iterations. Every iteration that continues completes at least
one step, so `steps.length + 1` units of fuel reproduce the source loop
exactly; running out of fuel coincides with the loop's defensive
empty-batch break. -/
def execLoop (env : OrchEnv) (config : OrchestrationConfig) (taskId : String)
    (options : Option OrchestrationEventOptions) (steps : List PlanStep) :
    Nat → List StepResult → List String → List OrchestrationEvent →
    List StepResult × List OrchestrationEvent
  | 0, results, _, log => (results, log)
  | fuel + 1, results, completed, log =>
      if completed.length < steps.length then
        let batch := readyPlanSteps steps completed
        if batch.isEmpty then (results, log)
        else
          let parallelSteps := batch.filter (fun s => s.parallel)
          let sequentialSteps := batch.filter (fun s => !s.parallel)
          let sq := seqRunSteps env config taskId options sequentialSteps
            results completed log
          if sq.2.2.2 then (sq.1, sq.2.2.1)
          else if parallelSteps.isEmpty then
            execLoop env config taskId options steps fuel sq.1 sq.2.1 sq.2.2.1
          else
            let pr := parRunSteps env config taskId options parallelSteps
              sq.2.2.1
            let results := sq.1 ++ pr.1
            let completed :=
              parallelSteps.foldl (fun c s => addCompleted c s.id) sq.2.1
            if config.abortOnError = true ∧
                pr.1.any (fun r => r.status == .error) = true then
              (results, pr.2)
            else
              execLoop env config taskId options steps fuel results completed
                pr.2
      else (results, log)

/-- `executeStepsWithEvents` from orchestrator.ts. -/
def executeStepsWithEvents (env : OrchEnv) (config : OrchestrationConfig)
    (taskId : String) (options : Option OrchestrationEventOptions)
    (steps : List PlanStep) (log : List OrchestrationEvent) :
    List StepResult × List OrchestrationEvent :=
  execLoop env config taskId options steps (steps.length + 1) [] [] log

/-- `errorResult` from orchestrator.ts. -/
def errorResult (summary : String) (steps : List StepResult)
    (error : LikuErrorInfo) : OrchestrationResult :=
  .error error.code (summary ++ ": " ++ error.message) error.details steps

/-- `escalationResult` from orchestrator.ts. -/
def escalationResult (summary : String) (steps : List StepResult)
    (escalation : EscalationInfo) : OrchestrationResult :=
  .escalation summary steps escalation

/-- `finishRun` from orchestrator.ts: store the result in the registry
(idempotently) and emit the run_completed event. -/
def finishRun (env : OrchEnv) (reg : TaskRegistryState) (taskId : String)
    (options : Option OrchestrationEventOptions) (steps : List StepResult)
    (result : OrchestrationResult) (log : List OrchestrationEvent) :
    OrchestrationResult × TaskRegistryState × List OrchestrationEvent :=
  let reg := (TaskRegistry.setResult reg taskId result env.now).2
  let log := emitEvent options
    (.run_completed env.now taskId result.kind steps.length
      (steps.filter (fun s => s.status == .success)).length
      env.runDurationMs) log
  (result, reg, log)

/-- The supervisor step literal from `run`. -/
def supervisorStep (input : OrchestrationInput) : PlanStep :=
  { id := "supervisor",
    description := "Supervisor analyzes request and routes to appropriate agents",
    agentResidence := input.startResidence.getD "Liku/root",
    input := .obj [("query", .str input.query)],
    dependsOn := [], parallel := false }

/-- The parser step literal from `run`. -/
def parserStep (input : OrchestrationInput) (supervisorOutput : Option JsValue) :
    PlanStep :=
  { id := "parser",
    description := "Parser normalizes request into structured task",
    agentResidence := "Liku/specialist/parser",
    input := .obj [("query", .str input.query),
                   ("supervisorAnalysis", supervisorOutput.getD .null)],
    dependsOn := ["supervisor"], parallel := false }

/-- The planner step literal from `run`. -/
def plannerStep (parserOutput : Option JsValue) : PlanStep :=
  { id := "planner",
    description := "Planner decomposes goal into executable steps",
    agentResidence := "Liku/specialist/planner",
    input := .obj [("parsedTask", parserOutput.getD .null)],
    dependsOn := ["parser"], parallel := false }

/-- A JSON rendering of a plan step for the synthesizer's input payload. -/
def encodePlanStep (s : PlanStep) : JsValue :=
  .obj [("id", .str s.id), ("description", .str s.description),
        ("agentResidence", .str s.agentResidence), ("input", s.input),
        ("dependsOn", .arr (s.dependsOn.map .str)),
        ("parallel", .bool s.parallel)]

/-- A JSON rendering of a plan for the synthesizer's input payload. -/
def encodePlan (p : PlannerOutput) : JsValue :=
  .obj [("goalSummary", .str p.goalSummary),
        ("steps", .arr (p.steps.map encodePlanStep)),
        ("constraints", .arr (p.constraints.map .str)),
        ("risks", .arr (p.risks.map .str))]

/-- The synthesizer step literal from `run`. -/
def synthesizerStep (plan : PlannerOutput)
    (successfulOutputs : List (String × Option JsValue)) : PlanStep :=
  { id := "synthesizer",
    description := "Synthesizer merges step outputs into final result",
    agentResidence := "Liku/specialist/synthesizer",
    input := .obj [("stepOutputs", .arr (successfulOutputs.map (fun p =>
                     .obj [("stepId", .str p.1),
                           ("output", p.2.getD .null)]))),
                   ("plan", encodePlan plan)],
    dependsOn := plan.steps.map (fun s => s.id), parallel := false }

/-- Control after the supervisor/parser/planner prefix of `run`: either an
early terminal result headed for `finishRun` (the source's early
`return this.finishRun(...)` sites) or the plan to execute. -/
inductive PipelineCont
  | done (steps : List StepResult) (result : OrchestrationResult)
  | proceed (steps : List StepResult) (plan : PlannerOutput)

/-- The supervisor/parser/planner prefix of `run` (orchestrator.ts). The
source's non-null assertions `supervisorResult.error!` and
`supervisorResult.escalation!` appear as `.getD default`; `runStep`
guarantees the respective field is present in those branches. -/
def runPipelinePrefix (env : OrchEnv) (config : OrchestrationConfig)
    (taskId : String) (options : Option OrchestrationEventOptions)
    (input : OrchestrationInput) (log : List OrchestrationEvent) :
    PipelineCont × List OrchestrationEvent :=
  let sup := runStepWithEvents env config taskId options (supervisorStep input)
    log
  let steps1 := [sup.1]
  if sup.1.status = .error ∧ config.abortOnError = true then
    (.done steps1 (errorResult "Supervisor failed" steps1
      (sup.1.error.getD default)), sup.2)
  else if sup.1.status = .escalated then
    (.done steps1 (escalationResult "Supervisor escalated" steps1
      (sup.1.escalation.getD default)), sup.2)
  else
    let par := runStepWithEvents env config taskId options
      (parserStep input sup.1.output) sup.2
    let steps2 := steps1 ++ [par.1]
    if par.1.status = .error ∧ config.abortOnError = true then
      (.done steps2 (errorResult "Parser failed" steps2
        (par.1.error.getD default)), par.2)
    else
      match input.plan with
      | some plan => (.proceed steps2 plan, par.2)
      | none =>
          let pl := runStepWithEvents env config taskId options
            (plannerStep par.1.output) par.2
          let steps3 := steps2 ++ [pl.1]
          if pl.1.status = .error ∧ config.abortOnError = true then
            (.done steps3 (errorResult "Planner failed" steps3
              (pl.1.error.getD default)), pl.2)
          else (.proceed steps3 (parsePlannerOutput pl.1.output), pl.2)

/-- The plan-execution tail of `run`: execute the plan's steps, then the
escalation check (which the source runs before the failure check), the
failure check, the synthesizer, and the final ok/partial result — every
exit through `finishRun`. `env.pipelineThrow` injects a JavaScript
exception from the awaited machinery at this stage, routed to `run`'s
catch clause, which also exits through `finishRun`. -/
def runExecutionPhase (env : OrchEnv) (reg : TaskRegistryState)
    (config : OrchestrationConfig) (taskId : String)
    (options : Option OrchestrationEventOptions)
    (stepsSoFar : List StepResult) (plan : PlannerOutput)
    (log : List OrchestrationEvent) :
    OrchestrationResult × TaskRegistryState × List OrchestrationEvent :=
  match env.pipelineThrow with
  | some e =>
      finishRun env reg taskId options stepsSoFar
        (.error e.code e.message e.details stepsSoFar) log
  | none =>
      let er := executeStepsWithEvents env config taskId options plan.steps log
      let steps := stepsSoFar ++ er.1
      let failedSteps := er.1.filter (fun r => r.status == .error)
      let escalatedSteps := er.1.filter (fun r => r.status == .escalated)
      if escalatedSteps.length > 0 then
        finishRun env reg taskId options steps
          (escalationResult
            (toString escalatedSteps.length ++ " step(s) require escalation")
            steps ((escalatedSteps.head?.bind StepResult.escalation).getD
              default)) er.2
      else if failedSteps.length > 0 ∧ config.abortOnError = true then
        finishRun env reg taskId options steps
          (errorResult (toString failedSteps.length ++ " step(s) failed")
            steps ((failedSteps.head?.bind StepResult.error).getD default))
          er.2
      else
        let successfulOutputs :=
          (er.1.filter (fun r => r.status == .success)).map
            (fun r => (r.stepId, r.output))
        let sy := runStepWithEvents env config taskId options
          (synthesizerStep plan successfulOutputs) er.2
        let steps2 := steps ++ [sy.1]
        let result : OrchestrationResult :=
          if failedSteps.length > 0 then
            .partialRun plan.goalSummary steps2 sy.1.output
              (failedSteps.map (fun s => s.stepId))
          else .ok plan.goalSummary steps2 sy.1.output
        finishRun env reg taskId options steps2 result sy.2

/-- `Orchestrator.run` from orchestrator.ts: config merge, task creation
and running status, run_started, the supervisor/parser/planner prefix,
then the execution phase. The effective config's abort signal is some
signal either way (the input's or the created task's controller), so it
is recorded as present. The event log of the whole run is returned with
the result and the registry. -/
def Orchestrator.run (env : OrchEnv) (reg : TaskRegistryState)
    (input : OrchestrationInput) :
    OrchestrationResult × TaskRegistryState × List OrchestrationEvent :=
  let config := mergeOrchConfig (getDefaultConfig env) input.config
  let options := input.events
  let c := TaskRegistry.create reg input env.freshTaskId env.now
  let taskId := c.1
  let reg1 := (TaskRegistry.updateStatus c.2 taskId .running none env.now).2
  let effectiveConfig := { config with abortSignal := some () }
  let log := emitEvent options
    (.run_started env.now taskId input.query
      (input.startResidence.getD "Liku/root")) []
  match (runPipelinePrefix env effectiveConfig taskId options input log).1 with
  | .done steps result =>
      finishRun env reg1 taskId options steps result
        (runPipelinePrefix env effectiveConfig taskId options input log).2
  | .proceed steps plan =>
      runExecutionPhase env reg1 effectiveConfig taskId options steps plan
        (runPipelinePrefix env effectiveConfig taskId options input log).2

/-- Whether an event is a run_completed event. -/
def isRunCompletedEvt : OrchestrationEvent → Bool
  | .run_completed .. => true
  | _ => false

/-- The number of run_completed events delivered in a log. -/
def countRunCompleted (log : List OrchestrationEvent) : Nat :=
  (log.filter isRunCompletedEvt).length

/-- A bundle with no skills and empty paper trail (what the engine hands
back for a residence whose skills.xml files declare nothing). -/
def emptyBundle : AgentBundle :=
  { agentResidence := "Liku/root", skills := [],
    paperTrail := { todoPath := "", errorsPath := "" },
    prompts := { system := "", instructions := "" } }

/-- A bundle carrying one declared skill that requires the
`network_access` capability with `escalateIfMissing` — the capability is
not granted at `user` or `specialist` privilege, so validating this
bundle at such a residence requires escalation. -/
def networkSkillBundle : AgentBundle :=
  { agentResidence := "Liku/specialist/parser",
    skills := [{ id := "fetch_data",
                 description := some "Fetch data over the network",
                 residencePath := "Liku/specialist/parser",
                 requiredPrivilege := .user,
                 requires := some .network_access,
                 escalateIfMissing := some true }],
    paperTrail := { todoPath := "", errorsPath := "" },
    prompts := { system := "", instructions := "" } }

/-- A benign environment: every invocation resolves to the empty bundle,
no LLM, no timeout, no exception. -/
def simpleEnv : OrchEnv :=
  { invokeAgent := fun _ => .ok emptyBundle,
    llmConfigured := false,
    llmGenerate := fun _ _ =>
      .error { code := "INTERNAL", message := "no llm" },
    timeExceeded := fun _ => false,
    durationOf := fun _ => 0,
    now := "2026-01-01T00:00:00.000Z",
    freshTaskId := "task-1",
    runDurationMs := 0,
    pipelineThrow := none }

/-- An empty task registry. -/
def regEmpty : TaskRegistryState := { tasks := [], aborted := [] }

/-- An environment whose engine resolves the escalation-requiring bundle
exactly for the parser step (the parser residence's skills.xml declares
the network_access skill) and the empty bundle elsewhere; the engine
itself only ever returns ok. -/
def envParserEscalates : OrchEnv :=
  { simpleEnv with
      invokeAgent := fun step =>
        .ok (if step.id = "parser" then networkSkillBundle
             else emptyBundle) }

/-- An orchestration input supplying an empty externally-built plan, with
no event subscription. -/
def inputEmptyPlan : OrchestrationInput :=
  { query := "q",
    plan := some { goalSummary := "g", steps := [], constraints := [],
                   risks := [] } }

/-- An environment whose engine always resolves the escalation-requiring
bundle (the residence's skills.xml declares the network_access skill). -/
def envSupervisorEscalates : OrchEnv :=
  { simpleEnv with invokeAgent := fun _ => .ok networkSkillBundle }

/-- A minimal input whose start residence classifies as `user` privilege
(so validating `networkSkillBundle` there requires escalation), with no
plan and no events. -/
def inputUserResidence : OrchestrationInput :=
  { query := "q", startResidence := some "Liku/workspace" }

/-- A minimal orchestration input with a subscribed event handler. -/
def inputSubscribed : OrchestrationInput :=
  { query := "q", events := some { onEvent := true } }

/-- The task update performed by `setResult` on a non-terminal task
(named here for use in the theorems below). -/
def finishedTask (task : TaskState) (r : OrchestrationResult) (now : String) :
    TaskState :=
  { task with result := some r,
              status := if r.kind = "error" then .failed else .completed,
              updatedAt := now }

/-- Fixture: a plan step at a specialist residence with the given id and
dependencies. -/
def fixtureStep (id : String) (deps : List String) : PlanStep :=
  { id := id, description := "d", agentResidence := "Liku/specialist/ts",
    input := .null, dependsOn := deps, parallel := false }

/-- Fixture: a 21-step plan whose first step depends on itself — a
dependency cycle inside a plan that also exceeds the default step cap. -/
def oversizedCyclicPlan : PlannerOutput :=
  { goalSummary := "g",
    steps := fixtureStep "s0" ["s0"] ::
      (List.range 20).map (fun i => fixtureStep ("t" ++ toString i) []),
    constraints := [], risks := [] }

/-- Fixture: a three-step plan with the dependency cycle a → b → c → a. -/
def threeCyclePlan : PlannerOutput :=
  { goalSummary := "g",
    steps := [fixtureStep "a" ["b"], fixtureStep "b" ["c"],
      fixtureStep "c" ["a"]],
    constraints := [], risks := [] }

/-- Fixture: a one-step plan whose `dependsOn` array is not sorted. -/
def unsortedDepsPlan : PlannerOutput :=
  { goalSummary := "g", steps := [fixtureStep "s" ["b", "a"]],
    constraints := [], risks := [] }

/-! ## Theorems

Everything below this point is a lemma or a claim theorem; all
definitions of the embedding appear above. -/

theorem indexOf_privilegeOrder (p : Privilege) :
    privilegeOrder.indexOf p = p.level := by
  cases p <;> rfl

/-! ## Correctness of the embedded string searches -/

theorem leadsWith_iff (needle hay : List Char) :
    leadsWith needle hay = true ↔ ∃ r, hay = needle ++ r := by
  induction needle generalizing hay with
  | nil => simp [leadsWith]
  | cons a as ih =>
      cases hay with
      | nil => simp [leadsWith]
      | cons b bs =>
          simp only [leadsWith, Bool.and_eq_true, decide_eq_true_eq, ih,
            List.cons_append, List.cons.injEq]
          constructor
          · rintro ⟨rfl, r, rfl⟩
            exact ⟨r, rfl, rfl⟩
          · rintro ⟨r, rfl, rfl⟩
            exact ⟨rfl, r, rfl⟩

theorem containsRun_iff (hay needle : List Char) :
    containsRun hay needle = true ↔ OccursIn needle hay := by
  induction hay with
  | nil =>
      rw [containsRun]
      simp only [Bool.or_false, leadsWith_iff, OccursIn]
      constructor
      · rintro ⟨r, h⟩
        exact ⟨[], r, by simpa using h⟩
      · rintro ⟨l, r, h⟩
        have h' : l = [] ∧ needle = [] ∧ r = [] := by
          simpa using h.symm
        exact ⟨r, by simp [h'.2.1, h'.2.2]⟩
  | cons c t ih =>
      rw [containsRun]
      simp only [Bool.or_eq_true, leadsWith_iff, ih, OccursIn]
      constructor
      · rintro (⟨r, h⟩ | ⟨l, r, rfl⟩)
        · exact ⟨[], r, by simpa using h⟩
        · exact ⟨c :: l, r, rfl⟩
      · rintro ⟨l, r, h⟩
        cases l with
        | nil => exact Or.inl ⟨r, by simpa using h⟩
        | cons x xs =>
            right
            rcases List.cons.injEq .. ▸ h with ⟨-, h2⟩
            exact ⟨xs, r, h2⟩

theorem endsWithRun_iff (hay needle : List Char) :
    endsWithRun hay needle = true ↔ EndsIn needle hay := by
  unfold endsWithRun
  simp only [Bool.and_eq_true, leadsWith_iff, decide_eq_true_eq, EndsIn]
  constructor
  · rintro ⟨⟨r, hdrop⟩, hlen⟩
    have hlen' : (hay.drop (hay.length - needle.length)).length = needle.length := by
      rw [List.length_drop]
      omega
    have hr : needle.length + r.length = needle.length := by
      have h2 := congrArg List.length hdrop
      rw [hlen', List.length_append] at h2
      omega
    have : r = [] := List.eq_nil_of_length_eq_zero (by omega)
    subst this
    refine ⟨hay.take (hay.length - needle.length), ?_⟩
    conv_lhs => rw [← List.take_append_drop (hay.length - needle.length) hay]
    rw [hdrop]
    simp
  · rintro ⟨l, rfl⟩
    have hl : (l ++ needle).length - needle.length = l.length := by
      simp
    refine ⟨⟨[], ?_⟩, by simp⟩
    rw [hl, List.drop_append_of_le_length (le_refl _)]
    simp

/-- Claim C1, counterexample. The claim says classification is by path
segments, with every path lacking a `root`/`specialist` segment
classified `user`. The path `"Liku"` has neither segment (its only
segment is `Liku`), so the claim assigns it `user`; the code classifies
it `root` via the special case for the bare `Liku` directory. -/
theorem C1_counterexample :
    getResidencePrivilege "Liku" = Privilege.root ∧
      segmentClassify "Liku" = Privilege.user := by
  constructor <;> rfl

/-- Claim C1, amended. Classification into a `Privilege` is total over all
residence strings, but it is decided by substring containment on the
separator-normalised path, not by path segments: the result is `root`
iff the path contains the substring `"/root"`, equals `"Liku"`, or ends
with `"/Liku"`; otherwise `specialist` iff it contains the substring
`"/specialist"`; otherwise `user` (so every unclassifiable path still
defaults to `user`). -/
theorem C1_theorem (path : String) :
    (getResidencePrivilege path = Privilege.root ↔ RootPathCond path) ∧
      (getResidencePrivilege path = Privilege.specialist ↔
        ¬RootPathCond path ∧ SpecialistPathCond path) ∧
      (getResidencePrivilege path = Privilege.user ↔
        ¬RootPathCond path ∧ ¬SpecialistPathCond path) := by
  have hroot := containsRun_iff (normalizeSeps path.toList) "/root".toList
  have hliku := endsWithRun_iff (normalizeSeps path.toList) "/Liku".toList
  have hspec := containsRun_iff (normalizeSeps path.toList) "/specialist".toList
  by_cases h1 : containsRun (normalizeSeps path.toList) "/root".toList = true <;>
    by_cases h2 : normalizeSeps path.toList = "Liku".toList <;>
    by_cases h3 : endsWithRun (normalizeSeps path.toList) "/Liku".toList = true <;>
    by_cases h4 : containsRun (normalizeSeps path.toList) "/specialist".toList = true <;>
    simp_all [getResidencePrivilege, RootPathCond, SpecialistPathCond,
      ← hroot, ← hliku, ← hspec]

/-! ## Claim C2: skill execution validation -/

/-- Claim C2. With privileges ordered `user < specialist < root`,
`validateSkillExecution` returns `insufficient_privilege` (carrying the
required and current levels) whenever the skill's required privilege is
strictly above the current one, regardless of any declared capability
requirement; when privilege suffices but the required capability is not
granted at the current privilege, it returns `missing_capability` with
`escalate` equal to the skill's `escalateIfMissing` (`false` when
absent); otherwise it returns `allowed`. -/
theorem C2_theorem (skill : LikuSkill) (current : Privilege) :
    (Privilege.level current < Privilege.level skill.requiredPrivilege →
      validateSkillExecution skill current =
        .insufficient_privilege skill.requiredPrivilege current) ∧
      (Privilege.level skill.requiredPrivilege ≤ Privilege.level current →
        ∀ c, skill.requires = some c → hasCapability current c = false →
          validateSkillExecution skill current =
            .missing_capability c (skill.escalateIfMissing.getD false)) ∧
      (Privilege.level skill.requiredPrivilege ≤ Privilege.level current →
        (skill.requires = none ∨
          ∃ c, skill.requires = some c ∧ hasCapability current c = true) →
        validateSkillExecution skill current = .allowed) := by
  obtain ⟨sid, desc, resp, reqp, reqs, esc⟩ := skill
  refine ⟨fun h => ?_, fun h c hc hcap => ?_, fun h hc => ?_⟩
  · unfold validateSkillExecution
    simp only [indexOf_privilegeOrder]
    rw [if_pos h]
  · subst hc
    have h' : Privilege.level reqp ≤ Privilege.level current := h
    unfold validateSkillExecution
    simp only [indexOf_privilegeOrder]
    rw [if_neg (by omega)]
    simp [hcap]
  · have h' : Privilege.level reqp ≤ Privilege.level current := h
    unfold validateSkillExecution
    simp only [indexOf_privilegeOrder]
    rw [if_neg (by omega)]
    rcases hc with rfl | ⟨c, rfl, hcap⟩
    · rfl
    · simp [hcap]

/-- Claim C2, witness: the three branches exercised on a concrete skill
requiring `specialist` privilege and the `network_access` capability with
`escalateIfMissing` set. -/
theorem C2_witness :
    validateSkillExecution
        { id := "net", residencePath := "Liku/specialist/x",
          requiredPrivilege := .specialist, requires := some .network_access,
          escalateIfMissing := some true } .user =
      .insufficient_privilege .specialist .user ∧
    validateSkillExecution
        { id := "net", residencePath := "Liku/specialist/x",
          requiredPrivilege := .specialist, requires := some .network_access,
          escalateIfMissing := some true } .specialist =
      .missing_capability .network_access true ∧
    validateSkillExecution
        { id := "net", residencePath := "Liku/specialist/x",
          requiredPrivilege := .specialist, requires := some .network_access,
          escalateIfMissing := some true } .root = .allowed := by
  refine ⟨(C2_theorem _ .user).1 (by decide),
    (C2_theorem _ .specialist).2.1 (by decide) _ rfl (by decide),
    (C2_theorem _ .root).2.2 (by decide) (Or.inr ⟨_, rfl, by decide⟩)⟩

/-! ## Map lemmas -/

theorem mapGet_mapSet_self {β : Type} (m : List (String × β)) (k : String) (v : β) :
    mapGet (mapSet m k v) k = some v := by
  induction m with
  | nil => simp [mapSet, mapGet]
  | cons p rest ih =>
      obtain ⟨k', v'⟩ := p
      by_cases h : k' = k
      · subst h
        simp [mapSet, mapGet]
      · simp [mapSet, mapGet, h, ih]

theorem mapGet_mapSet_other {β : Type} (m : List (String × β)) (k k' : String)
    (v : β) (h : k' ≠ k) : mapGet (mapSet m k v) k' = mapGet m k' := by
  induction m with
  | nil =>
      simp only [mapSet, mapGet]
      rw [if_neg (fun hh => h hh.symm)]
  | cons p rest ih =>
      obtain ⟨k0, v0⟩ := p
      by_cases h0 : k0 = k
      · subst h0
        simp only [mapSet, if_pos rfl, mapGet]
        rw [if_neg (fun hh => h hh.symm), if_neg (fun hh => h hh.symm)]
      · simp only [mapSet, if_neg h0, mapGet]
        by_cases h1 : k0 = k'
        · simp [h1]
        · simp [h1, ih]

/-! ## Claims C4 and C10: Task Registry `setResult` -/

/-- Characterisation of `setResult` on a non-terminal task. -/
theorem setResult_nonterminal (reg : TaskRegistryState) (id : String)
    (r : OrchestrationResult) (now : String) (task : TaskState)
    (hget : mapGet reg.tasks id = some task)
    (hterm : ¬(task.status = .completed ∨ task.status = .failed ∨
      task.status = .cancelled)) :
    TaskRegistry.setResult reg id r now =
      (.success false,
        { reg with tasks := mapSet reg.tasks id (finishedTask task r now) }) := by
  unfold TaskRegistry.setResult finishedTask
  rw [hget]
  simp [hterm]

/-- Characterisation of `setResult` on a terminal task: no mutation. -/
theorem setResult_terminal (reg : TaskRegistryState) (id : String)
    (r : OrchestrationResult) (now : String) (task : TaskState)
    (hget : mapGet reg.tasks id = some task)
    (hterm : task.status = .completed ∨ task.status = .failed ∨
      task.status = .cancelled) :
    (TaskRegistry.setResult reg id r now).2 = reg ∧
      (task.result.isSome →
        TaskRegistry.setResult reg id r now = (.success true, reg)) := by
  unfold TaskRegistry.setResult
  rw [hget]
  by_cases hres : task.result.isSome <;> simp [hterm, hres]

/-- Claim C10. For a task in status `pending` or `running`,
`TaskRegistry.setResult` stores the given orchestration result and
derives the terminal status solely from the result's kind: the task
becomes `failed` exactly when the kind is `"error"`, and `completed` for
every other kind (including `"partial"` and `"escalation"`). -/
theorem C10_theorem (reg : TaskRegistryState) (id : String)
    (r : OrchestrationResult) (now : String) (task : TaskState)
    (hget : mapGet reg.tasks id = some task)
    (hstatus : task.status = .pending ∨ task.status = .running) :
    (TaskRegistry.setResult reg id r now).1 = .success false ∧
      ∃ t', mapGet (TaskRegistry.setResult reg id r now).2.tasks id = some t' ∧
        t'.result = some r ∧
        (t'.status = .failed ↔ r.kind = "error") ∧
        (t'.status = .completed ↔ r.kind ≠ "error") := by
  have hterm : ¬(task.status = .completed ∨ task.status = .failed ∨
      task.status = .cancelled) := by
    rcases hstatus with h | h <;> simp [h]
  rw [setResult_nonterminal reg id r now task hget hterm]
  refine ⟨rfl, ⟨finishedTask task r now, mapGet_mapSet_self _ _ _, rfl, ?_, ?_⟩⟩ <;>
    by_cases hk : r.kind = "error" <;> simp [finishedTask, hk]

/-- Claim C10, witness: an `"error"`-kind result moves a concrete pending
task to `failed` and stores the result. -/
theorem C10_witness :
    (TaskRegistry.setResult
        { tasks := [("t1",
            { id := "t1", createdAt := "c", updatedAt := "c",
              status := .pending, input := { query := "q" } })],
          aborted := [("t1", false)] }
        "t1" (.error "INTERNAL" "boom" none []) "n").1 = .success false ∧
      (mapGet (TaskRegistry.setResult
        { tasks := [("t1",
            { id := "t1", createdAt := "c", updatedAt := "c",
              status := .pending, input := { query := "q" } })],
          aborted := [("t1", false)] }
        "t1" (.error "INTERNAL" "boom" none []) "n").2.tasks "t1").map
        TaskState.status = some TaskStatus.failed := by
  obtain ⟨h1, t', hget, hres, hfail, hcomp⟩ :=
    C10_theorem
      { tasks := [("t1",
          { id := "t1", createdAt := "c", updatedAt := "c",
            status := .pending, input := { query := "q" } })],
        aborted := [("t1", false)] }
      "t1" (.error "INTERNAL" "boom" none []) "n"
      { id := "t1", createdAt := "c", updatedAt := "c",
        status := .pending, input := { query := "q" } }
      rfl (Or.inl rfl)
  refine ⟨h1, ?_⟩
  rw [hget]
  simp [hfail.mpr rfl]

/-- Claim C4. `setResult` is idempotent over terminal states: a first
`setResult` on a `pending` task succeeds with `wasIdempotent: false` and
stores the result; every further `setResult` on that task returns
`wasIdempotent: true` and leaves the registry (in particular the task's
`result` and `status`) unchanged; and `setResult` on any task already in
a terminal status (`completed`, `failed` or `cancelled`) never mutates
the registry. -/
theorem C4_theorem :
    (∀ (reg : TaskRegistryState) (id : String) (r : OrchestrationResult)
        (now : String) (task : TaskState),
      mapGet reg.tasks id = some task → task.status = .pending →
      (TaskRegistry.setResult reg id r now).1 = .success false ∧
        (∃ t', mapGet (TaskRegistry.setResult reg id r now).2.tasks id = some t' ∧
          t'.result = some r) ∧
        ∀ (r2 : OrchestrationResult) (now2 : String),
          TaskRegistry.setResult (TaskRegistry.setResult reg id r now).2 id r2 now2 =
            (.success true, (TaskRegistry.setResult reg id r now).2)) ∧
    (∀ (reg : TaskRegistryState) (id : String) (r : OrchestrationResult)
        (now : String) (task : TaskState),
      mapGet reg.tasks id = some task →
      (task.status = .completed ∨ task.status = .failed ∨
        task.status = .cancelled) →
      (TaskRegistry.setResult reg id r now).2 = reg) := by
  constructor
  · intro reg id r now task hget hpending
    have hterm : ¬(task.status = .completed ∨ task.status = .failed ∨
        task.status = .cancelled) := by simp [hpending]
    have hfirst := setResult_nonterminal reg id r now task hget hterm
    have hget2 : mapGet (TaskRegistry.setResult reg id r now).2.tasks id =
        some (finishedTask task r now) := by
      rw [hfirst]
      exact mapGet_mapSet_self _ _ _
    have hterm2 : (finishedTask task r now).status = .completed ∨
        (finishedTask task r now).status = .failed ∨
        (finishedTask task r now).status = .cancelled := by
      by_cases hk : r.kind = "error" <;> simp [finishedTask, hk]
    refine ⟨by rw [hfirst], ⟨finishedTask task r now, hget2, rfl⟩, fun r2 now2 => ?_⟩
    exact (setResult_terminal _ id r2 now2 _ hget2 hterm2).2 rfl
  · intro reg id r now task hget hterm
    exact (setResult_terminal reg id r now task hget hterm).1

/-- Claim C4, witness: on a concrete pending task, the first `setResult`
reports `wasIdempotent: false` and a second call is a registry-preserving
no-op reporting `wasIdempotent: true`. -/
theorem C4_witness :
    (TaskRegistry.setResult
        { tasks := [("t2",
            { id := "t2", createdAt := "c", updatedAt := "c",
              status := .pending, input := { query := "q" } })],
          aborted := [("t2", false)] }
        "t2" (.ok "done" [] none) "n1").1 = .success false ∧
      TaskRegistry.setResult
          (TaskRegistry.setResult
            { tasks := [("t2",
                { id := "t2", createdAt := "c", updatedAt := "c",
                  status := .pending, input := { query := "q" } })],
              aborted := [("t2", false)] }
            "t2" (.ok "done" [] none) "n1").2
          "t2" (.ok "done" [] none) "n2" =
        (.success true,
          (TaskRegistry.setResult
            { tasks := [("t2",
                { id := "t2", createdAt := "c", updatedAt := "c",
                  status := .pending, input := { query := "q" } })],
              aborted := [("t2", false)] }
            "t2" (.ok "done" [] none) "n1").2) := by
  obtain ⟨h1, _, h3⟩ :=
    C4_theorem.1
      { tasks := [("t2",
          { id := "t2", createdAt := "c", updatedAt := "c",
            status := .pending, input := { query := "q" } })],
        aborted := [("t2", false)] }
      "t2" (.ok "done" [] none) "n1"
      { id := "t2", createdAt := "c", updatedAt := "c",
        status := .pending, input := { query := "q" } }
      rfl rfl
  exact ⟨h1, h3 (.ok "done" [] none) "n2"⟩

/-! ## List helpers for the DFS proofs -/

theorem indexOf_append_left' {α : Type} [DecidableEq α] (y : α) (l r : List α)
    (hy : y ∈ l) : (l ++ r).indexOf y = l.indexOf y := by
  induction l with
  | nil => cases hy
  | cons x xs ih =>
      by_cases hxy : x = y
      · subst hxy
        simp [List.indexOf_cons_self]
      · have hy' : y ∈ xs := by
          rcases List.mem_cons.mp hy with h | h
          · exact absurd h.symm hxy
          · exact h
        simp only [List.cons_append, List.indexOf_cons_ne _ hxy, ih hy']

theorem indexOf_append_right' {α : Type} [DecidableEq α] (y : α) (l r : List α)
    (hy : y ∉ l) : (l ++ r).indexOf y = l.length + r.indexOf y := by
  induction l with
  | nil => simp
  | cons x xs ih =>
      have hxy : x ≠ y := fun h => hy (h ▸ List.mem_cons_self x xs)
      have hyxs : y ∉ xs := fun h => hy (List.mem_cons_of_mem _ h)
      simp only [List.cons_append, List.indexOf_cons_ne _ hxy, ih hyxs,
        List.length_cons]
      omega

theorem erase_append_singleton {α : Type} [DecidableEq α] (xs : List α) (u : α)
    (hu : u ∉ xs) : (xs ++ [u]).erase u = xs := by
  rw [List.erase_append_right _ hu]
  simp

theorem append_singleton_eq_append_cons {α : Type} (xs l r : List α) (a u : α)
    (h : xs ++ [u] = l ++ a :: r) :
    (l = xs ∧ a = u ∧ r = []) ∨ ∃ r', r = r' ++ [u] ∧ xs = l ++ a :: r' := by
  rcases List.eq_nil_or_concat r with rfl | ⟨r', b, rfl⟩
  · left
    have hlen : xs.length = l.length := by
      have := congrArg List.length h
      simp at this
      omega
    obtain ⟨h1, h2⟩ := List.append_inj h hlen
    exact ⟨h1.symm, (by simpa using h2 : u = a).symm, rfl⟩
  · right
    have h' : xs ++ [u] = (l ++ a :: r') ++ [b] := by simpa using h
    have hlen : xs.length = (l ++ a :: r').length := by
      have := congrArg List.length h'
      simp at this
      simp
      omega
    obtain ⟨h1, h2⟩ := List.append_inj h' hlen
    have hub : u = b := by simpa using h2
    exact ⟨r', by rw [hub, List.concat_eq_append], h1⟩

/-! ## Acyclicity from the `visited` invariant -/

theorem good_rank (E : String → String → Prop) (vb : List String)
    (hnd : vb.Nodup) (hg : GoodList E vb) (a b : String) (ha : a ∈ vb)
    (hE : E a b) : b ∈ vb ∧ vb.indexOf b < vb.indexOf a := by
  obtain ⟨l, r, rfl⟩ := List.append_of_mem ha
  have hb : b ∈ l := hg l a r rfl b hE
  have hal : a ∉ l := by
    rcases List.nodup_append.mp hnd with ⟨-, -, hdisj⟩
    exact fun hal => hdisj hal (List.mem_cons_self a r)
  constructor
  · exact List.mem_append_left _ hb
  · rw [indexOf_append_left' b l (a :: r) hb, indexOf_append_right' a l (a :: r) hal]
    simp only [List.indexOf_cons_self, Nat.add_zero]
    exact (List.indexOf_lt_length).mpr hb

theorem good_descent (E : String → String → Prop) (vb : List String)
    (hnd : vb.Nodup) (hg : GoodList E vb) :
    ∀ (ws : List String) (a z : String),
      List.Chain' E (a :: ws ++ [z]) → a ∈ vb →
      z ∈ vb ∧ vb.indexOf z < vb.indexOf a := by
  intro ws
  induction ws with
  | nil =>
      intro a z hchain ha
      exact good_rank E vb hnd hg a z ha (List.chain'_pair.mp hchain)
  | cons w ws' ih =>
      intro a z hchain ha
      have h1 : E a w ∧ List.Chain' E (w :: ws' ++ [z]) := by
        rw [show a :: (w :: ws') ++ [z] = a :: w :: (ws' ++ [z]) by simp] at hchain
        exact List.chain'_cons.mp hchain
      obtain ⟨hw, hrank⟩ := good_rank E vb hnd hg a w ha h1.1
      obtain ⟨hz, hrank2⟩ := ih w z h1.2 hw
      exact ⟨hz, lt_trans hrank2 hrank⟩

theorem good_no_cycle (E : String → String → Prop) (vb : List String)
    (hnd : vb.Nodup) (hg : GoodList E vb) (a : String) (ws : List String)
    (hchain : List.Chain' E (a :: ws ++ [a])) (ha : a ∈ vb) : False := by
  have := (good_descent E vb hnd hg ws a a hchain ha).2
  exact lt_irrefl _ this

/-! ## The DFS invariant

`planDfs`/`planDfsDeps` are always called with `path = visiting` (the
gray set is exactly the call-stack path); on a `none` return the gray set
is restored, the black list has grown at the end, and every black node's
dependencies are black and finished strictly earlier (`GoodList`); on a
`some` return the reported path is a genuine edge walk ending in a
repeated node. -/

theorem nodup_subset_length_le (visiting S : List String)
    (hvS : ∀ x ∈ visiting, x ∈ S) (hvnd : visiting.Nodup) :
    visiting.length ≤ S.length := by
  have h1 : visiting.toFinset ⊆ S.toFinset := fun x hx =>
    List.mem_toFinset.mpr (hvS x (List.mem_toFinset.mp hx))
  calc visiting.length = visiting.toFinset.card :=
        (List.toFinset_card_of_nodup hvnd).symm
    _ ≤ S.toFinset.card := Finset.card_le_card h1
    _ ≤ S.length := List.toFinset_card_le S

mutual

theorem planDfs_spec (M : List (String × PlanStep)) (S : List String)
    (fuel : Nat) (u : String) (visiting visited : List String)
    (hvS : ∀ x ∈ visiting, x ∈ S) (huS : u ∈ S)
    (hvnd : visiting.Nodup) (hbnd : visited.Nodup)
    (hdisj : ∀ x ∈ visited, x ∉ visiting)
    (hfuel : S.length + 1 ≤ fuel + visiting.length)
    (hgood : GoodList (MEdge M S) visited)
    (hchain : List.Chain' (MEdge M S) (visiting ++ [u])) :
    (∀ cycle vg vb,
        planDfs M S fuel u visiting visiting visited = (some cycle, vg, vb) →
        ∃ l1 a l2, cycle = l1 ++ a :: (l2 ++ [a]) ∧
          List.Chain' (MEdge M S) cycle) ∧
    (∀ vg vb,
        planDfs M S fuel u visiting visiting visited = (none, vg, vb) →
        vg = visiting ∧ (∃ ext, vb = visited ++ ext) ∧ u ∈ vb ∧
          vb.Nodup ∧ (∀ x ∈ vb, x ∉ visiting) ∧ GoodList (MEdge M S) vb) := by
  match fuel with
  | 0 =>
      exfalso
      have := nodup_subset_length_le visiting S hvS hvnd
      omega
  | n + 1 =>
      by_cases hmem : u ∈ visiting
      · constructor
        · intro cycle vg vb heq
          rw [planDfs, if_pos hmem] at heq
          simp only [Prod.mk.injEq, Option.some.injEq] at heq
          obtain ⟨rfl, -, -⟩ := heq
          obtain ⟨l1, l2, hdecomp⟩ := List.append_of_mem hmem
          refine ⟨l1, u, l2, by rw [hdecomp]; simp, ?_⟩
          exact hchain
        · intro vg vb heq
          rw [planDfs, if_pos hmem] at heq
          exact absurd heq (by simp)
      · by_cases hmem2 : u ∈ visited
        · constructor
          · intro cycle vg vb heq
            rw [planDfs, if_neg hmem, if_pos hmem2] at heq
            exact absurd heq (by simp)
          · intro vg vb heq
            rw [planDfs, if_neg hmem, if_pos hmem2] at heq
            simp only [Prod.mk.injEq] at heq
            obtain ⟨-, rfl, rfl⟩ := heq
            exact ⟨rfl, ⟨[], by simp⟩, hmem2, hbnd, hdisj, hgood⟩
        · -- white node: recurse into the dependency loop
          have hvS2 : ∀ x ∈ visiting ++ [u], x ∈ S := by
            intro x hx
            rcases List.mem_append.mp hx with h | h
            · exact hvS x h
            · rw [List.mem_singleton.mp h]; exact huS
          have hndv2 : (visiting ++ [u]).Nodup := by
            rw [List.nodup_append]
            refine ⟨hvnd, List.nodup_singleton u, ?_⟩
            intro x hx hxu
            rw [List.mem_singleton.mp hxu] at hx
            exact hmem hx
          have hdisj2 : ∀ x ∈ visited, x ∉ visiting ++ [u] := by
            intro x hx hmem3
            rcases List.mem_append.mp hmem3 with h | h
            · exact hdisj x hx h
            · rw [List.mem_singleton] at h
              exact hmem2 (h ▸ hx)
          have hfuel2 : S.length + 1 ≤ n + (visiting ++ [u]).length := by
            simp only [List.length_append, List.length_singleton]
            omega
          have hdeps' : ∀ d ∈ (match mapGet M u with
                | some st => st.dependsOn
                | none => ([] : List String)), d ∈ S → MEdge M S u d := by
            intro d hd hdS
            cases hm : mapGet M u with
            | none => rw [hm] at hd; exact absurd hd (by simp)
            | some st =>
                rw [hm] at hd
                exact ⟨st, hm, hd, hdS⟩
          obtain ⟨dspecSome, dspecNone⟩ :=
            planDfsDeps_spec M S n
              (match mapGet M u with
                | some st => st.dependsOn
                | none => ([] : List String))
              visiting u visited hvS2 hndv2 hbnd hdisj2 hfuel2 hgood hchain
              hdeps'
          rcases hres : planDfsDeps M S n
              (match mapGet M u with
                | some st => st.dependsOn
                | none => ([] : List String))
              (visiting ++ [u]) (visiting ++ [u]) visited with ⟨o, vgl, vbl⟩
          cases o with
          | some c =>
              constructor
              · intro cycle vg vb heq
                rw [planDfs, if_neg hmem, if_neg hmem2] at heq
                rw [hres] at heq
                simp only [Prod.mk.injEq, Option.some.injEq] at heq
                obtain ⟨rfl, -, -⟩ := heq
                exact dspecSome c vgl vbl hres
              · intro vg vb heq
                rw [planDfs, if_neg hmem, if_neg hmem2] at heq
                rw [hres] at heq
                exact absurd heq (by simp)
          | none =>
              obtain ⟨hvg, ⟨ext, hvb⟩, hnodupl, hdisjl, hgoodl, hdepsl⟩ :=
                dspecNone vgl vbl hres
              have hunotin : u ∉ vbl := fun hu =>
                hdisjl u hu (List.mem_append_right _ (List.mem_singleton_self u))
              constructor
              · intro cycle vg vb heq
                rw [planDfs, if_neg hmem, if_neg hmem2] at heq
                rw [hres] at heq
                exact absurd heq (by simp)
              · intro vg vb heq
                rw [planDfs, if_neg hmem, if_neg hmem2] at heq
                rw [hres] at heq
                simp only [Prod.mk.injEq] at heq
                obtain ⟨-, rfl, rfl⟩ := heq
                refine ⟨?_, ⟨ext ++ [u], by rw [hvb]; simp⟩, ?_, ?_, ?_, ?_⟩
                · rw [hvg]
                  exact erase_append_singleton visiting u hmem
                · exact List.mem_append_right _ (List.mem_singleton_self u)
                · rw [List.nodup_append]
                  refine ⟨hnodupl, List.nodup_singleton u, ?_⟩
                  intro x hx hxu
                  rw [List.mem_singleton.mp hxu] at hx
                  exact hunotin hx
                · intro x hx
                  rcases List.mem_append.mp hx with h | h
                  · intro hxv
                    exact hdisjl x h (List.mem_append_left _ hxv)
                  · rw [List.mem_singleton.mp h]
                    exact hmem
                · intro l a r heq2 b hEb
                  rcases append_singleton_eq_append_cons vbl l r a u heq2 with
                    ⟨rfl, rfl, rfl⟩ | ⟨r', rfl, hvbl2⟩
                  · obtain ⟨st, hmst, hbd, hbS⟩ := hEb
                    refine hdepsl b ?_ hbS
                    rw [hmst]
                    exact hbd
                  · exact hgoodl l a r' hvbl2 b hEb

theorem planDfsDeps_spec (M : List (String × PlanStep)) (S : List String)
    (fuel : Nat) (deps : List String) (pre : List String) (v0 : String)
    (visited : List String)
    (hvS : ∀ x ∈ pre ++ [v0], x ∈ S)
    (hvnd : (pre ++ [v0]).Nodup) (hbnd : visited.Nodup)
    (hdisj : ∀ x ∈ visited, x ∉ pre ++ [v0])
    (hfuel : S.length + 1 ≤ fuel + (pre ++ [v0]).length)
    (hgood : GoodList (MEdge M S) visited)
    (hchain : List.Chain' (MEdge M S) (pre ++ [v0]))
    (hdeps : ∀ d ∈ deps, d ∈ S → MEdge M S v0 d) :
    (∀ cycle vg vb,
        planDfsDeps M S fuel deps (pre ++ [v0]) (pre ++ [v0]) visited =
            (some cycle, vg, vb) →
        ∃ l1 a l2, cycle = l1 ++ a :: (l2 ++ [a]) ∧
          List.Chain' (MEdge M S) cycle) ∧
    (∀ vg vb,
        planDfsDeps M S fuel deps (pre ++ [v0]) (pre ++ [v0]) visited =
            (none, vg, vb) →
        vg = pre ++ [v0] ∧ (∃ ext, vb = visited ++ ext) ∧ vb.Nodup ∧
          (∀ x ∈ vb, x ∉ pre ++ [v0]) ∧ GoodList (MEdge M S) vb ∧
          ∀ d ∈ deps, d ∈ S → d ∈ vb) := by
  match deps with
  | [] =>
      constructor
      · intro cycle vg vb heq
        rw [planDfsDeps] at heq
        exact absurd heq (by simp)
      · intro vg vb heq
        rw [planDfsDeps] at heq
        simp only [Prod.mk.injEq] at heq
        obtain ⟨-, rfl, rfl⟩ := heq
        exact ⟨rfl, ⟨[], by simp⟩, hbnd, hdisj, hgood, by simp⟩
  | dep :: rest =>
      by_cases hdS : dep ∈ S
      · have hedge : MEdge M S v0 dep :=
          hdeps dep (List.mem_cons_self dep rest) hdS
        have hchain2 : List.Chain' (MEdge M S) ((pre ++ [v0]) ++ [dep]) := by
          rw [List.chain'_append]
          refine ⟨hchain, List.chain'_singleton dep, ?_⟩
          intro x hx y hy
          rw [List.getLast?_concat] at hx
          simp only [Option.mem_def, Option.some.injEq] at hx
          simp only [List.head?_cons, Option.mem_def, Option.some.injEq] at hy
          rw [← hx, ← hy]
          exact hedge
        obtain ⟨uspecSome, uspecNone⟩ :=
          planDfs_spec M S fuel dep (pre ++ [v0]) visited hvS hdS hvnd hbnd
            hdisj hfuel hgood hchain2
        rcases hres : planDfs M S fuel dep (pre ++ [v0]) (pre ++ [v0]) visited
          with ⟨o, vg1, vb1⟩
        cases o with
        | some c =>
            constructor
            · intro cycle vg vb heq
              rw [planDfsDeps, if_pos hdS, hres] at heq
              simp only [Prod.mk.injEq, Option.some.injEq] at heq
              obtain ⟨rfl, -, -⟩ := heq
              exact uspecSome c vg1 vb1 hres
            · intro vg vb heq
              rw [planDfsDeps, if_pos hdS, hres] at heq
              exact absurd heq (by simp)
        | none =>
            obtain ⟨hvg1, ⟨ext1, hvb1⟩, hdep1, hnd1, hdisj1, hgood1⟩ :=
              uspecNone vg1 vb1 hres
            subst hvg1
            obtain ⟨rspecSome, rspecNone⟩ :=
              planDfsDeps_spec M S fuel rest pre v0 vb1 hvS hvnd hnd1 hdisj1
                hfuel hgood1 hchain
                (fun d hd hdS' => hdeps d (List.mem_cons_of_mem _ hd) hdS')
            constructor
            · intro cycle vg vb heq
              rw [planDfsDeps, if_pos hdS, hres] at heq
              exact rspecSome cycle vg vb heq
            · intro vg vb heq
              rw [planDfsDeps, if_pos hdS, hres] at heq
              obtain ⟨hvg, ⟨ext2, hvb2⟩, hnd2, hdisj2, hgood2, hdeps2⟩ :=
                rspecNone vg vb heq
              refine ⟨hvg, ⟨ext1 ++ ext2, by rw [hvb2, hvb1]; simp⟩, hnd2,
                hdisj2, hgood2, ?_⟩
              intro d hd hdS'
              rcases List.mem_cons.mp hd with rfl | hd'
              · rw [hvb2]
                exact List.mem_append_left _ hdep1
              · exact hdeps2 d hd' hdS'
      · obtain ⟨rspecSome, rspecNone⟩ :=
          planDfsDeps_spec M S fuel rest pre v0 visited hvS hvnd hbnd hdisj
            hfuel hgood hchain
            (fun d hd hdS' => hdeps d (List.mem_cons_of_mem _ hd) hdS')
        constructor
        · intro cycle vg vb heq
          rw [planDfsDeps, if_neg hdS] at heq
          exact rspecSome cycle vg vb heq
        · intro vg vb heq
          rw [planDfsDeps, if_neg hdS] at heq
          obtain ⟨hvg, hext, hnd2, hdisj2, hgood2, hdeps2⟩ :=
            rspecNone vg vb heq
          refine ⟨hvg, hext, hnd2, hdisj2, hgood2, ?_⟩
          intro d hd hdS'
          rcases List.mem_cons.mp hd with rfl | hd'
          · exact absurd hdS' hdS
          · exact hdeps2 d hd' hdS'

end

theorem mapGet_mapSet_cases {β : Type} (m : List (String × β)) (k k' : String)
    (v w : β) (h : mapGet (mapSet m k v) k' = some w) :
    (k' = k ∧ w = v) ∨ mapGet m k' = some w := by
  induction m with
  | nil =>
      simp only [mapSet, mapGet] at h
      by_cases hk : k = k'
      · subst hk
        simp at h
        exact Or.inl ⟨rfl, h.symm⟩
      · simp [hk] at h
  | cons p rest ih =>
      obtain ⟨k0, v0⟩ := p
      by_cases h0 : k0 = k
      · subst h0
        simp only [mapSet, if_pos rfl, mapGet] at h
        by_cases hk : k0 = k'
        · subst hk
          simp at h
          exact Or.inl ⟨rfl, h.symm⟩
        · simp only [if_neg hk] at h
          simp only [mapGet, if_neg hk]
          exact Or.inr h
      · simp only [mapSet, if_neg h0, mapGet] at h
        by_cases hk : k0 = k'
        · simp only [if_pos hk] at h
          simp only [mapGet, if_pos hk]
          exact Or.inr h
        · simp only [if_neg hk] at h
          simp only [mapGet, if_neg hk]
          exact ih h

theorem mapGet_foldl_buildStepMap (rest : List PlanStep)
    (acc : List (String × PlanStep)) (a : String) (st : PlanStep)
    (h : mapGet (rest.foldl (fun m s => mapSet m s.id s) acc) a = some st) :
    mapGet acc a = some st ∨ (st ∈ rest ∧ st.id = a) := by
  induction rest generalizing acc with
  | nil => exact Or.inl h
  | cons s rest' ih =>
      rcases ih (mapSet acc s.id s) h with h' | h'
      · rcases mapGet_mapSet_cases acc s.id a s st h' with ⟨rfl, rfl⟩ | h''
        · exact Or.inr ⟨List.mem_cons_self _ _, rfl⟩
        · exact Or.inl h''
      · exact Or.inr ⟨List.mem_cons_of_mem _ h'.1, h'.2⟩

theorem mapGet_buildStepMap_sound (steps : List PlanStep) (a : String)
    (st : PlanStep) (h : mapGet (buildStepMap steps) a = some st) :
    st ∈ steps ∧ st.id = a := by
  rcases mapGet_foldl_buildStepMap steps [] a st h with h' | h'
  · simp [mapGet] at h'
  · exact h'

theorem goodList_nil (E : String → String → Prop) : GoodList E [] := by
  intro l a r heq
  exfalso
  have := congrArg List.length heq
  simp only [List.length_nil, List.length_append, List.length_cons] at this
  omega

theorem checkCircLoop_spec (M : List (String × PlanStep)) (S : List String)
    (fuel : Nat) (rest : List PlanStep) (visited : List String)
    (hfuel : S.length + 1 ≤ fuel)
    (hbnd : visited.Nodup) (hgood : GoodList (MEdge M S) visited)
    (hS : ∀ step ∈ rest, step.id ∈ S) :
    (∀ cycle, checkCircLoop M S fuel rest [] visited = some cycle →
        ∃ l1 a l2, cycle = l1 ++ a :: (l2 ++ [a]) ∧
          List.Chain' (MEdge M S) cycle) ∧
    (checkCircLoop M S fuel rest [] visited = none →
        ∃ vb, (∃ ext, vb = visited ++ ext) ∧ vb.Nodup ∧
          GoodList (MEdge M S) vb ∧ ∀ step ∈ rest, step.id ∈ vb) := by
  induction rest generalizing visited with
  | nil =>
      constructor
      · intro cycle heq
        rw [checkCircLoop] at heq
        cases heq
      · intro _
        exact ⟨visited, ⟨[], by simp⟩, hbnd, hgood, by simp⟩
  | cons step rest' ih =>
      obtain ⟨uspecSome, uspecNone⟩ :=
        planDfs_spec M S fuel step.id [] visited (by simp)
          (hS step (List.mem_cons_self step rest')) List.nodup_nil hbnd
          (by simp) (by simp; omega) hgood
          (by simp)
      rcases hres : planDfs M S fuel step.id [] [] visited with ⟨o, vg, vb⟩
      cases o with
      | some c =>
          constructor
          · intro cycle heq
            rw [checkCircLoop, hres] at heq
            simp only [Option.some.injEq] at heq
            subst heq
            exact uspecSome c vg vb hres
          · intro heq
            rw [checkCircLoop, hres] at heq
            cases heq
      | none =>
          obtain ⟨hvg, ⟨ext1, hvb⟩, hstep, hnd1, -, hgood1⟩ :=
            uspecNone vg vb hres
          subst hvg
          obtain ⟨ihSome, ihNone⟩ :=
            ih vb hnd1 hgood1 (fun s hs => hS s (List.mem_cons_of_mem _ hs))
          constructor
          · intro cycle heq
            rw [checkCircLoop, hres] at heq
            exact ihSome cycle heq
          · intro heq
            rw [checkCircLoop, hres] at heq
            obtain ⟨vbF, ⟨ext2, hvbF⟩, hndF, hgoodF, hmemF⟩ := ihNone heq
            refine ⟨vbF, ⟨ext1 ++ ext2, by rw [hvbF, hvb]; simp⟩, hndF, hgoodF,
              ?_⟩
            intro s hs
            rcases List.mem_cons.mp hs with rfl | hs'
            · rw [hvbF]
              exact List.mem_append_left _ hstep
            · exact hmemF s hs'

/-- If the dependency graph (as traversed by the DFS) contains a cycle,
`checkCircularDependencies` reports `circular_dependency`, and the path
in its details is a genuine edge walk ending in a repeated node. -/
theorem checkCircularDependencies_spec (steps : List PlanStep)
    (hcyc : ∃ a ws,
      List.Chain' (MEdge (buildStepMap steps) ((steps.map PlanStep.id).dedup))
        (a :: ws ++ [a])) :
    ∃ p, checkCircularDependencies steps =
        .invalid "circular_dependency"
          ("Circular dependency detected: " ++ String.intercalate " → " p) ∧
      ∃ l1 a l2, p = l1 ++ a :: (l2 ++ [a]) ∧
        List.Chain' (MEdge (buildStepMap steps)
          ((steps.map PlanStep.id).dedup)) p := by
  obtain ⟨a, ws, hchain⟩ := hcyc
  obtain ⟨loopSome, loopNone⟩ :=
    checkCircLoop_spec (buildStepMap steps) ((steps.map PlanStep.id).dedup)
      (((steps.map PlanStep.id).dedup).length + 1) steps [] (le_refl _)
      List.nodup_nil (goodList_nil _)
      (fun step hstep => List.mem_dedup.mpr (List.mem_map_of_mem _ hstep))
  rcases hloop : checkCircLoop (buildStepMap steps)
      ((steps.map PlanStep.id).dedup)
      (((steps.map PlanStep.id).dedup).length + 1) steps [] [] with - | cycle
  · exfalso
    obtain ⟨vbF, -, hndF, hgoodF, hmemF⟩ := loopNone hloop
    have hedge : ∃ y, MEdge (buildStepMap steps)
        ((steps.map PlanStep.id).dedup) a y := by
      cases ws with
      | nil => exact ⟨a, List.chain'_pair.mp (by simpa using hchain)⟩
      | cons w ws' =>
          refine ⟨w, ?_⟩
          have h := List.chain'_cons.mp (by simpa using hchain)
          exact h.1
    obtain ⟨y, st, hget, -, -⟩ := hedge
    obtain ⟨hstmem, hstid⟩ := mapGet_buildStepMap_sound steps a st hget
    have havb : a ∈ vbF := hstid ▸ hmemF st hstmem
    exact good_no_cycle _ vbF hndF hgoodF a ws hchain havb
  · obtain ⟨l1, x, l2, hdecomp, hchainp⟩ := loopSome cycle hloop
    refine ⟨cycle, ?_, l1, x, l2, hdecomp, hchainp⟩
    simp only [checkCircularDependencies]
    rw [hloop]

/-! ## Bridging the DFS graph to the plan's dependency relation -/

theorem mapGet_foldl_not_mem (rest : List PlanStep) (k : String)
    (hk : k ∉ rest.map PlanStep.id) (acc : List (String × PlanStep)) :
    mapGet (rest.foldl (fun m s => mapSet m s.id s) acc) k = mapGet acc k := by
  induction rest generalizing acc with
  | nil => rfl
  | cons s rest' ih =>
      have hks : s.id ≠ k := fun h =>
        hk (h ▸ List.mem_map_of_mem PlanStep.id (List.mem_cons_self s rest'))
      have hk' : k ∉ rest'.map PlanStep.id := fun h =>
        hk (List.mem_cons_of_mem _ h)
      rw [List.foldl_cons, ih hk', mapGet_mapSet_other acc s.id k s
        (fun h => hks h.symm)]

theorem mapGet_foldl_complete (rest : List PlanStep)
    (hnodup : (rest.map PlanStep.id).Nodup) (st : PlanStep) (hmem : st ∈ rest) :
    ∀ acc, mapGet (rest.foldl (fun m s => mapSet m s.id s) acc) st.id = some st := by
  induction rest with
  | nil => cases hmem
  | cons s rest' ih =>
      intro acc
      rcases List.mem_cons.mp hmem with rfl | hmem'
      · have hnotin : st.id ∉ rest'.map PlanStep.id :=
          (List.nodup_cons.mp (by simpa using hnodup)).1
        rw [List.foldl_cons, mapGet_foldl_not_mem rest' st.id hnotin _,
          mapGet_mapSet_self]
      · exact ih (List.nodup_cons.mp (by simpa using hnodup)).2 hmem' _

theorem mapGet_buildStepMap_complete (steps : List PlanStep)
    (hnodup : (steps.map PlanStep.id).Nodup) (st : PlanStep)
    (hmem : st ∈ steps) : mapGet (buildStepMap steps) st.id = some st :=
  mapGet_foldl_complete steps hnodup st hmem []

theorem mEdge_iff_planEdge (steps : List PlanStep)
    (hnodup : (steps.map PlanStep.id).Nodup) (a b : String) :
    MEdge (buildStepMap steps) ((steps.map PlanStep.id).dedup) a b ↔
      PlanEdge steps a b := by
  constructor
  · rintro ⟨st, hget, hbd, hbS⟩
    obtain ⟨hmem, hid⟩ := mapGet_buildStepMap_sound steps a st hget
    exact ⟨st, hmem, hid, hbd, List.mem_dedup.mp hbS⟩
  · rintro ⟨s, hmem, hid, hbd, hbid⟩
    subst hid
    exact ⟨s, mapGet_buildStepMap_complete steps hnodup s hmem, hbd,
      List.mem_dedup.mpr hbid⟩

theorem map_id_sortDependsOn (steps : List PlanStep) :
    (steps.map sortDependsOn).map PlanStep.id = steps.map PlanStep.id := by
  induction steps with
  | nil => rfl
  | cons s rest ih => simp only [List.map_cons, ih, sortDependsOn]

theorem planEdge_map_sort (steps : List PlanStep) (a b : String) :
    PlanEdge (steps.map sortDependsOn) a b ↔ PlanEdge steps a b := by
  constructor
  · rintro ⟨s', hmem', hid, hbd, hbid⟩
    obtain ⟨s, hs, rfl⟩ := List.mem_map.mp hmem'
    refine ⟨s, hs, hid, ?_, ?_⟩
    · exact (List.Perm.mem_iff (List.perm_insertionSort _ _)).mp hbd
    · rw [← map_id_sortDependsOn]
      exact hbid
  · rintro ⟨s, hs, hid, hbd, hbid⟩
    refine ⟨sortDependsOn s, List.mem_map_of_mem _ hs, hid, ?_, ?_⟩
    · exact (List.Perm.mem_iff (List.perm_insertionSort _ _)).mpr hbd
    · rw [map_id_sortDependsOn]
      exact hbid

theorem checkParallelism_snd (steps : List PlanStep) (m : Nat) :
    (checkParallelism steps m).2 = steps.map sortDependsOn := by
  simp only [checkParallelism]
  split <;> rfl

theorem validatePlan_fst_of_middle (plan : PlannerOutput)
    (constraints : PartialPlanConstraints)
    (hcount : ¬plan.steps.length > (mergeConstraints constraints).maxSteps)
    (hpar : (checkParallelism plan.steps
      (mergeConstraints constraints).maxParallelism).1 = .valid)
    (r d : String)
    (hcirc : checkCircularDependencies
      (checkParallelism plan.steps
        (mergeConstraints constraints).maxParallelism).2 = .invalid r d) :
    (validatePlan plan constraints).1 = .invalid r d := by
  simp only [validatePlan]
  rw [if_neg hcount]
  rcases hp : checkParallelism plan.steps
      (mergeConstraints constraints).maxParallelism with ⟨parRes, steps2⟩
  rw [hp] at hpar hcirc
  simp only at hpar hcirc
  subst hpar
  rw [hcirc]

/-! ## Claim C5: cycle detection in `validatePlan` -/

/-- Claim C5, counterexample. The validator's step-count check runs before
its cycle check, so a plan whose dependency relation contains a cycle can
fail with reason `too_many_steps` instead of `circular_dependency`: the
21-step plan whose first step depends on itself is rejected as
`too_many_steps` under the default constraints even though it contains a
dependency cycle. -/
theorem C5_counterexample :
    (validatePlan oversizedCyclicPlan {}).1 =
        .invalid "too_many_steps" "Plan has 21 steps, max allowed is 20" ∧
      PlanHasCycle oversizedCyclicPlan.steps := by
  constructor
  · rfl
  · refine ⟨"s0", [], ?_⟩
    refine List.chain'_pair.mpr ?_
    refine ⟨fixtureStep "s0" ["s0"], List.mem_cons_self _ _, rfl,
      by simp [fixtureStep], ?_⟩
    simp [oversizedCyclicPlan, fixtureStep]

/-- Claim C5, amended. For a plan with unique step ids whose `dependsOn`
relation (restricted to ids present in the plan) contains a cycle, and
which passes the step-count and parallelism checks that the validator
runs first, `validatePlan` returns `valid: false` with reason
`circular_dependency`, and its `details` string is the rendering of a
path that contains every step of a genuine dependency cycle (the
offending cycle found by the depth-first search). -/
theorem C5_theorem (plan : PlannerOutput) (constraints : PartialPlanConstraints)
    (hnodup : (plan.steps.map PlanStep.id).Nodup)
    (hcount : ¬plan.steps.length > (mergeConstraints constraints).maxSteps)
    (hpar : (checkParallelism plan.steps
      (mergeConstraints constraints).maxParallelism).1 = .valid)
    (hcyc : PlanHasCycle plan.steps) :
    ∃ p a ws,
      (validatePlan plan constraints).1 =
        .invalid "circular_dependency"
          ("Circular dependency detected: " ++ String.intercalate " → " p) ∧
      List.Chain' (PlanEdge plan.steps) (a :: ws ++ [a]) ∧
      ∀ x ∈ a :: ws ++ [a], x ∈ p := by
  have hnodup2 : ((plan.steps.map sortDependsOn).map PlanStep.id).Nodup := by
    rw [map_id_sortDependsOn]
    exact hnodup
  obtain ⟨a, ws, hchain⟩ := hcyc
  have hchain2 : List.Chain'
      (MEdge (buildStepMap (plan.steps.map sortDependsOn))
        (((plan.steps.map sortDependsOn).map PlanStep.id).dedup))
      (a :: ws ++ [a]) :=
    hchain.imp fun x y h =>
      (mEdge_iff_planEdge _ hnodup2 x y).mpr ((planEdge_map_sort _ x y).mpr h)
  obtain ⟨p, hres, l1, x, l2, hdecomp, hchainp⟩ :=
    checkCircularDependencies_spec (plan.steps.map sortDependsOn)
      ⟨a, ws, hchain2⟩
  have hsnd := checkParallelism_snd plan.steps
    (mergeConstraints constraints).maxParallelism
  have hvp := validatePlan_fst_of_middle plan constraints hcount hpar _ _
    (by rw [hsnd]; exact hres)
  refine ⟨p, x, l2, hvp, ?_, ?_⟩
  · have hsuffix : List.Chain'
        (MEdge (buildStepMap (plan.steps.map sortDependsOn))
          (((plan.steps.map sortDependsOn).map PlanStep.id).dedup))
        (x :: (l2 ++ [x])) := by
      rw [hdecomp] at hchainp
      exact hchainp.right_of_append
    exact hsuffix.imp fun u v h =>
      (planEdge_map_sort _ u v).mp ((mEdge_iff_planEdge _ hnodup2 u v).mp h)
  · intro z hz
    rw [hdecomp]
    exact List.mem_append_right _ hz

/-- Claim C5, witness: on the concrete three-step cycle a → b → c → a the
amended theorem applies; the validator reports `circular_dependency` with
a details path containing every step of the cycle. -/
theorem C5_witness :
    ∃ p a ws,
      (validatePlan threeCyclePlan {}).1 =
        .invalid "circular_dependency"
          ("Circular dependency detected: " ++ String.intercalate " → " p) ∧
      List.Chain' (PlanEdge threeCyclePlan.steps) (a :: ws ++ [a]) ∧
      ∀ x ∈ a :: ws ++ [a], x ∈ p := by
  refine C5_theorem threeCyclePlan {} (by decide) (by decide) (by rfl) ?_
  refine ⟨"a", ["b", "c"], ?_⟩
  refine List.chain'_cons.mpr ⟨?_, List.chain'_cons.mpr ⟨?_,
    List.chain'_pair.mpr ?_⟩⟩
  · exact ⟨fixtureStep "a" ["b"], by simp [threeCyclePlan], rfl,
      by simp [fixtureStep], by simp [threeCyclePlan, fixtureStep]⟩
  · exact ⟨fixtureStep "b" ["c"], by simp [threeCyclePlan], rfl,
      by simp [fixtureStep], by simp [threeCyclePlan, fixtureStep]⟩
  · exact ⟨fixtureStep "c" ["a"], by simp [threeCyclePlan], rfl,
      by simp [fixtureStep], by simp [threeCyclePlan, fixtureStep]⟩

/-! ## Claim C9: `validatePlan` mutates the plan -/

/-- Claim C9. The claim states `validatePlan` treats the plan as
read-only, but `checkParallelism` calls `step.dependsOn.sort()`, which
sorts the array in place: on a one-step plan with `dependsOn`
`["b", "a"]`, after `validatePlan` returns, the step's `dependsOn` is
`["a", "b"]` — the element order was changed by the call. -/
theorem C9_theorem :
    unsortedDepsPlan.steps.map PlanStep.dependsOn = [["b", "a"]] ∧
      (validatePlan unsortedDepsPlan {}).2.steps.map PlanStep.dependsOn =
        [["a", "b"]] := by
  refine ⟨rfl, ?_⟩
  have h1 : checkParallelism unsortedDepsPlan.steps
      (mergeConstraints {}).maxParallelism =
      (.valid, [fixtureStep "s" ["a", "b"]]) := rfl
  simp only [validatePlan]
  rw [if_neg (by decide)]
  rw [h1]
  cases h2 : checkCircularDependencies [fixtureStep "s" ["a", "b"]] with
  | invalid r d => simp only [h2]; rfl
  | valid =>
      simp only [h2]
      rfl

/-! ## Code-unit string order: totality, transitivity, lexicographic
characterisation -/

theorem charListLe_total (a b : List Char) :
    charListLe a b = true ∨ charListLe b a = true := by
  induction a generalizing b with
  | nil => exact Or.inl rfl
  | cons x xs ih =>
      cases b with
      | nil => exact Or.inr rfl
      | cons y ys =>
          by_cases hxy : x = y
          · subst hxy
            rcases ih ys with h | h
            · exact Or.inl (by simp [charListLe, h])
            · exact Or.inr (by simp [charListLe, h])
          · rcases lt_trichotomy x y with h | h | h
            · exact Or.inl (by simp [charListLe, hxy, h])
            · exact absurd h hxy
            · exact Or.inr (by
                have hyx : y ≠ x := fun hh => hxy hh.symm
                simp [charListLe, hyx, h])

theorem charListLe_trans (a b c : List Char) (hab : charListLe a b = true)
    (hbc : charListLe b c = true) : charListLe a c = true := by
  induction a generalizing b c with
  | nil => rfl
  | cons x xs ih =>
      cases b with
      | nil => exact absurd hab (by simp [charListLe])
      | cons y ys =>
          cases c with
          | nil => exact absurd hbc (by simp [charListLe])
          | cons z zs =>
              by_cases hxy : x = y <;> by_cases hyz : y = z
              · subst hxy
                subst hyz
                simp only [charListLe, if_pos rfl] at hab hbc ⊢
                exact ih ys zs hab hbc
              · subst hxy
                simp only [charListLe, if_pos rfl] at hab
                simp only [charListLe, if_neg hyz] at hbc ⊢
                exact hbc
              · subst hyz
                simp only [charListLe, if_neg hxy] at hab ⊢
                exact hab
              · simp only [charListLe, if_neg hxy, decide_eq_true_eq] at hab
                simp only [charListLe, if_neg hyz, decide_eq_true_eq] at hbc
                have hxz : x < z := lt_trans hab hbc
                have hxz' : x ≠ z := ne_of_lt hxz
                simp [charListLe, hxz', hxz]

theorem charListLe_iff_lex (a b : List Char) :
    charListLe a b = true ↔ (a = b ∨ List.Lex (· < ·) a b) := by
  induction a generalizing b with
  | nil =>
      cases b with
      | nil => simp [charListLe]
      | cons y ys =>
          simp only [charListLe, true_iff]
          exact Or.inr List.Lex.nil
  | cons x xs ih =>
      cases b with
      | nil =>
          simp only [charListLe]
          constructor
          · intro h
            cases h
          · rintro (h | h)
            · cases h
            · cases h
      | cons y ys =>
          by_cases hxy : x = y
          · subst hxy
            rw [show charListLe (x :: xs) (x :: ys) = charListLe xs ys by
              simp [charListLe]]
            rw [ih ys]
            constructor
            · rintro (rfl | h)
              · exact Or.inl rfl
              · exact Or.inr (List.Lex.cons h)
            · rintro (h | h)
              · have h2 : xs = ys := by injection h
                exact Or.inl h2
              · cases h with
                | cons h => exact Or.inr h
                | rel h => exact absurd h (lt_irrefl x)
          · simp only [charListLe, if_neg hxy, decide_eq_true_eq,
              List.cons.injEq]
            constructor
            · intro h
              exact Or.inr (List.Lex.rel h)
            · rintro (⟨h1, -⟩ | h)
              · exact absurd h1 hxy
              · cases h with
                | cons h => exact absurd rfl hxy
                | rel h => exact h

/-! ## Claim C6: the inherited-skills index -/

theorem mem_mapSet {β : Type} (m : List (String × β)) (k : String) (v : β)
    (p : String × β) (hp : p ∈ mapSet m k v) : p = (k, v) ∨ p ∈ m := by
  induction m with
  | nil => simpa [mapSet] using hp
  | cons q rest ih =>
      obtain ⟨k0, v0⟩ := q
      by_cases h0 : k0 = k
      · subst h0
        simp only [mapSet, if_pos rfl] at hp
        rcases List.mem_cons.mp hp with rfl | hp'
        · exact Or.inl rfl
        · exact Or.inr (List.mem_cons_of_mem _ hp')
      · simp only [mapSet, if_neg h0] at hp
        rcases List.mem_cons.mp hp with rfl | hp'
        · exact Or.inr (List.mem_cons_self _ _)
        · rcases ih hp' with h | h
          · exact Or.inl h
          · exact Or.inr (List.mem_cons_of_mem _ h)

theorem keys_mapSet {β : Type} (m : List (String × β)) (k : String) (v : β) :
    (mapSet m k v).map Prod.fst =
      if k ∈ m.map Prod.fst then m.map Prod.fst
      else m.map Prod.fst ++ [k] := by
  induction m with
  | nil => simp [mapSet]
  | cons q rest ih =>
      obtain ⟨k0, v0⟩ := q
      by_cases h0 : k0 = k
      · subst h0
        simp [mapSet]
      · simp only [mapSet, if_neg h0, List.map_cons, ih]
        by_cases hk : k ∈ rest.map Prod.fst
        · simp [hk, h0]
        · have hk0 : ¬k = k0 := fun h => h0 h.symm
          simp [hk, hk0]

theorem keys_mapSet_nodup {β : Type} (m : List (String × β)) (k : String)
    (v : β) (h : (m.map Prod.fst).Nodup) :
    ((mapSet m k v).map Prod.fst).Nodup := by
  rw [keys_mapSet]
  by_cases hk : k ∈ m.map Prod.fst
  · simpa [hk] using h
  · rw [if_neg hk, List.nodup_append]
    exact ⟨h, List.nodup_singleton k, by
      intro x hx hxk
      rw [List.mem_singleton.mp hxk] at hx
      exact hk hx⟩

theorem mapGet_foldl_writes {β : Type} (ws : List (String × β))
    (m : List (String × β)) (X : String) :
    mapGet (ws.foldl (fun acc p => mapSet acc p.1 p.2) m) X =
      match (ws.filter (fun p => p.1 = X)).getLast? with
      | some p => some p.2
      | none => mapGet m X := by
  induction ws using List.reverseRecOn with
  | nil => simp
  | append_singleton ws p ih =>
      rw [List.foldl_append]
      simp only [List.foldl_cons, List.foldl_nil]
      by_cases hp : p.1 = X
      · rw [← hp, mapGet_mapSet_self]
        rw [List.filter_append]
        simp [hp]
      · rw [mapGet_mapSet_other _ _ _ _ (fun h => hp h.symm)]
        rw [List.filter_append]
        simp only [List.filter_cons, hp]
        simp [ih]

theorem dirFold_lookup (fs : SkillsFs) (d : List String)
    (m : List (String × LikuSkill)) (X : String) :
    mapGet (((fs d).getD []).foldl
      (fun m e => mapSet m e.id (mkSkill e d)) m) X =
      match lastEntryWithId ((fs d).getD []) X with
      | some e => some (mkSkill e d)
      | none => mapGet m X := by
  have h1 : ((fs d).getD []).foldl
      (fun m e => mapSet m e.id (mkSkill e d)) m =
      (((fs d).getD []).map (fun e => (e.id, mkSkill e d))).foldl
        (fun acc p => mapSet acc p.1 p.2) m := by
    rw [List.foldl_map]
  rw [h1, mapGet_foldl_writes]
  have h2 : (((fs d).getD []).map (fun e => (e.id, mkSkill e d))).filter
      (fun p => p.1 = X) =
      (((fs d).getD []).filter (fun e => e.id = X)).map
        (fun e => (e.id, mkSkill e d)) := by
    rw [List.filter_map]
    rfl
  rw [h2, List.getLast?_map]
  unfold lastEntryWithId
  cases (((fs d).getD []).filter (fun e => e.id = X)).getLast? with
  | none => rfl
  | some e => rfl

theorem byId_lookup_eq_findSome (fs : SkillsFs) (files : List (List String))
    (X : String) :
    mapGet ((files.reverse).foldl
      (fun m fileDir => ((fs fileDir).getD []).foldl
        (fun m e => mapSet m e.id (mkSkill e fileDir)) m) []) X =
      files.findSome? (fun dir =>
        (lastEntryWithId ((fs dir).getD []) X).map (fun e => mkSkill e dir)) := by
  induction files with
  | nil => simp [mapGet]
  | cons d files' ih =>
      rw [List.reverse_cons, List.foldl_append]
      simp only [List.foldl_cons, List.foldl_nil, List.findSome?_cons]
      rw [dirFold_lookup]
      cases lastEntryWithId ((fs d).getD []) X with
      | none => simpa using ih
      | some e => rfl

theorem keys_nodup_entryFold (entries : List SkillEntry) (d : List String)
    (m : List (String × LikuSkill)) (h : (m.map Prod.fst).Nodup) :
    ((entries.foldl (fun m e => mapSet m e.id (mkSkill e d)) m).map
      Prod.fst).Nodup := by
  induction entries generalizing m with
  | nil => exact h
  | cons e rest ih => exact ih _ (keys_mapSet_nodup m e.id _ h)

theorem keys_nodup_dirFold (fs : SkillsFs) (dirs : List (List String))
    (m : List (String × LikuSkill)) (h : (m.map Prod.fst).Nodup) :
    ((dirs.foldl (fun m fileDir => ((fs fileDir).getD []).foldl
      (fun m e => mapSet m e.id (mkSkill e fileDir)) m) m).map
      Prod.fst).Nodup := by
  induction dirs generalizing m with
  | nil => exact h
  | cons d rest ih => exact ih _ (keys_nodup_entryFold _ d m h)

theorem invId_entryFold (entries : List SkillEntry) (d : List String)
    (m : List (String × LikuSkill)) (h : ∀ p ∈ m, p.2.id = p.1) :
    ∀ p ∈ entries.foldl (fun m e => mapSet m e.id (mkSkill e d)) m,
      p.2.id = p.1 := by
  induction entries generalizing m with
  | nil => exact h
  | cons e rest ih =>
      refine ih _ ?_
      intro p hp
      rcases mem_mapSet _ _ _ p hp with rfl | hp'
      · rfl
      · exact h p hp'

theorem invId_dirFold (fs : SkillsFs) (dirs : List (List String))
    (m : List (String × LikuSkill)) (h : ∀ p ∈ m, p.2.id = p.1) :
    ∀ p ∈ dirs.foldl (fun m fileDir => ((fs fileDir).getD []).foldl
      (fun m e => mapSet m e.id (mkSkill e fileDir)) m) m, p.2.id = p.1 := by
  induction dirs generalizing m with
  | nil => exact h
  | cons d rest ih => exact ih _ (invId_entryFold _ d m h)

theorem findSkillsXmlFiles_of_empty (fs : SkillsFs) (h : ∀ d, fs d = none)
    (stop : List String) :
    ∀ fromDir, findSkillsXmlFiles fs stop fromDir = [] := by
  have key : ∀ n, ∀ fromDir : List String, fromDir.length ≤ n →
      findSkillsXmlFiles fs stop fromDir = [] := by
    intro n
    induction n with
    | zero =>
        intro d hd
        have hnil : d = [] := List.eq_nil_of_length_eq_zero (by omega)
        subst hnil
        rw [findSkillsXmlFiles]
        simp [h, dirName]
    | succ n ih =>
        intro d hd
        rw [findSkillsXmlFiles]
        simp only [h, Option.isSome_none, Bool.false_eq_true, if_false,
          List.nil_append]
        by_cases h1 : d = stop
        · simp [h1]
        · rw [if_neg h1]
          by_cases h2 : dirName d = d
          · simp [h2]
          · rw [if_neg h2]
            refine ih (dirName d) ?_
            have hne : d ≠ [] := by
              intro hnil
              exact h2 (by simp [dirName, hnil])
            have := List.length_pos.mpr hne
            simp only [dirName, List.length_dropLast]
            omega
  intro fromDir
  exact key fromDir.length fromDir (le_refl _)

instance : IsTotal LikuSkill (fun a b => jsStrLe a.id b.id = true) :=
  ⟨fun a b => charListLe_total a.id.toList b.id.toList⟩

instance : IsTrans LikuSkill (fun a b => jsStrLe a.id b.id = true) :=
  ⟨fun a b c => charListLe_trans a.id.toList b.id.toList c.id.toList⟩

/-- Claim C6. For every filesystem and every residence/trust-root pair,
the index built by `loadInheritedSkills` has unique skill ids; its skill
list is sorted lexicographically by id; looking any id up in the index
finds the declaration in the directory closest to the residence that
declares it (the last such declaration within that file), so a child
declaration overrides a same-id ancestor declaration; and when no
declaration files exist the result is an empty index, not an error. -/
theorem C6_theorem (fs : SkillsFs) (residenceDir likuRootDir : List String) :
    ((loadInheritedSkills fs residenceDir likuRootDir).skills.map
      LikuSkill.id).Nodup ∧
    (loadInheritedSkills fs residenceDir likuRootDir).skills.Pairwise
      (fun a b => LexLeStr a.id b.id) ∧
    (∀ X, mapGet (loadInheritedSkills fs residenceDir likuRootDir).byId X =
      (findSkillsXmlFiles fs likuRootDir residenceDir).findSome? (fun dir =>
        (lastEntryWithId ((fs dir).getD []) X).map (fun e => mkSkill e dir))) ∧
    ((∀ d, fs d = none) →
      (loadInheritedSkills fs residenceDir likuRootDir).skills = [] ∧
      (loadInheritedSkills fs residenceDir likuRootDir).byId = []) := by
  simp only [loadInheritedSkills]
  refine ⟨?_, ?_, ?_, ?_⟩
  · have hinv := invId_dirFold fs
      ((findSkillsXmlFiles fs likuRootDir residenceDir).reverse) []
      (by simp)
    have hkeys := keys_nodup_dirFold fs
      ((findSkillsXmlFiles fs likuRootDir residenceDir).reverse) []
      (by simp)
    have hids :
        (((findSkillsXmlFiles fs likuRootDir residenceDir).reverse.foldl
          (fun m fileDir => ((fs fileDir).getD []).foldl
            (fun m e => mapSet m e.id (mkSkill e fileDir)) m) []).map
          Prod.snd).map LikuSkill.id =
        ((findSkillsXmlFiles fs likuRootDir residenceDir).reverse.foldl
          (fun m fileDir => ((fs fileDir).getD []).foldl
            (fun m e => mapSet m e.id (mkSkill e fileDir)) m) []).map
          Prod.fst := by
      rw [List.map_map]
      exact List.map_congr_left (fun p hp => hinv p hp)
    have hperm := (List.perm_insertionSort
      (fun a b => jsStrLe a.id b.id = true)
      (((findSkillsXmlFiles fs likuRootDir residenceDir).reverse.foldl
        (fun m fileDir => ((fs fileDir).getD []).foldl
          (fun m e => mapSet m e.id (mkSkill e fileDir)) m) []).map
        Prod.snd)).map LikuSkill.id
    rw [(hperm.nodup_iff), hids]
    exact hkeys
  · have hsorted := List.sorted_insertionSort
      (fun a b => jsStrLe a.id b.id = true)
      (((findSkillsXmlFiles fs likuRootDir residenceDir).reverse.foldl
        (fun m fileDir => ((fs fileDir).getD []).foldl
          (fun m e => mapSet m e.id (mkSkill e fileDir)) m) []).map
        Prod.snd)
    exact hsorted.imp (fun h => (charListLe_iff_lex _ _).mp h)
  · intro X
    exact byId_lookup_eq_findSome fs _ X
  · intro hempty
    rw [findSkillsXmlFiles_of_empty fs hempty likuRootDir residenceDir]
    exact ⟨rfl, rfl⟩

/-- Claim C6, witness: with skill `X` declared both at the trust root
`Liku` and at the leaf `Liku/specialist`, the loaded index has exactly
the leaf's declaration for `X`; and with no declaration files at all the
loaded index is empty. -/
theorem C6_witness :
    mapGet (loadInheritedSkills overrideFs ["Liku", "specialist"]
      ["Liku"]).byId "X" =
      some { id := "X", description := none,
             residencePath := "Liku/specialist",
             requiredPrivilege := .specialist, requires := none,
             escalateIfMissing := none } ∧
    (loadInheritedSkills (fun _ => none) ["Liku", "specialist"]
      ["Liku"]).skills = [] := by
  constructor
  · rw [(C6_theorem overrideFs ["Liku", "specialist"] ["Liku"]).2.2.1 "X"]
    have hwalk : findSkillsXmlFiles overrideFs ["Liku"]
        ["Liku", "specialist"] = [["Liku", "specialist"], ["Liku"]] := by
      rw [findSkillsXmlFiles, findSkillsXmlFiles]
      rfl
    rw [hwalk]
    rfl
  · exact ((C6_theorem (fun _ => none) ["Liku", "specialist"]
      ["Liku"]).2.2.2 (fun d => rfl)).1

/-! ## Claim C3: the concurrency bound -/

/-- Claim C3. The concurrency bound is violated by a reachable event-loop
schedule: with `maxConcurrent = 1`, task 0 starts, task 1 queues, task
0's `finally` releases the slot and resolves waiter 1, then a fresh
`run` call (task 2) executes before waiter 1's continuation microtask
and takes the free slot, and finally waiter 1 resumes and increments the
count without re-checking capacity — leaving tasks 1 and 2 running
concurrently with `currentCount = 2 > maxConcurrent = 1`. -/
theorem C3_theorem :
    (runTrace (initLimiter 1 3)
        [.submit 0, .submit 1, .finish 0 false, .submit 2, .resume 1]).map
      (fun s => (s.currentCount, s.maxConcurrent, phaseOf s 1, phaseOf s 2)) =
      some (2, 1, .running, .running) := by
  rfl

/-- Every branch of `runStep` labels its result with the step's id. -/
theorem runStep_stepId (env : OrchEnv) (step : PlanStep)
    (config : OrchestrationConfig) :
    (runStep env step config).stepId = step.id := by
  unfold runStep
  repeat' split
  all_goals rfl

/-- The step result returned by `runStepWithEvents` is `runStep`'s. -/
theorem runStepWithEvents_fst (env : OrchEnv) (config : OrchestrationConfig)
    (taskId : String) (options : Option OrchestrationEventOptions)
    (step : PlanStep) (log : List OrchestrationEvent) :
    (runStepWithEvents env config taskId options step log).1 =
      runStep env step config := rfl

/-- The step result returned by `runStepWithEvents` carries the step's id. -/
theorem runStepWithEvents_stepId (env : OrchEnv) (config : OrchestrationConfig)
    (taskId : String) (options : Option OrchestrationEventOptions)
    (step : PlanStep) (log : List OrchestrationEvent) :
    (runStepWithEvents env config taskId options step log).1.stepId =
      step.id := by
  rw [runStepWithEvents_fst, runStep_stepId]

/-- Emitting a non-run_completed event never changes the run_completed
count. -/
theorem countRunCompleted_emit_other (options : Option OrchestrationEventOptions)
    (e : OrchestrationEvent) (log : List OrchestrationEvent)
    (h : isRunCompletedEvt e = false) :
    countRunCompleted (emitEvent options e log) = countRunCompleted log := by
  cases options with
  | none => rfl
  | some o =>
      simp only [emitEvent]
      split
      · rfl
      · split
        · rfl
        · simp [countRunCompleted, List.filter_append, h]

/-- Emitting a run_completed event to a subscribed handler increments the
run_completed count by one. -/
theorem countRunCompleted_emit_rc (o : OrchestrationEventOptions)
    (ho : o.onEvent = true) (e : OrchestrationEvent)
    (he : isRunCompletedEvt e = true) (log : List OrchestrationEvent) :
    countRunCompleted (emitEvent (some o) e log) =
      countRunCompleted log + 1 := by
  cases e
  all_goals simp_all [emitEvent, eventTypeOption, countRunCompleted,
    List.filter_append, isRunCompletedEvt]

/-- Specialization of `countRunCompleted_emit_other` to step_started. -/
theorem countRC_emit_started (options : Option OrchestrationEventOptions)
    (a b c d e : String) (log : List OrchestrationEvent) :
    countRunCompleted (emitEvent options (.step_started a b c d e) log) =
      countRunCompleted log :=
  countRunCompleted_emit_other options _ log rfl

/-- Specialization of `countRunCompleted_emit_other` to step_completed. -/
theorem countRC_emit_completed (options : Option OrchestrationEventOptions)
    (a b c d : String) (st : StepStatus) (n : Nat)
    (er : Option (LikuErrorCode × String)) (es : Option EscalationInfo)
    (log : List OrchestrationEvent) :
    countRunCompleted
        (emitEvent options (.step_completed a b c d st n er es) log) =
      countRunCompleted log :=
  countRunCompleted_emit_other options _ log rfl

/-- Specialization of `countRunCompleted_emit_other` to escalation. -/
theorem countRC_emit_escalation (options : Option OrchestrationEventOptions)
    (a b c : String) (info : EscalationInfo) (log : List OrchestrationEvent) :
    countRunCompleted (emitEvent options (.escalation a b c info) log) =
      countRunCompleted log :=
  countRunCompleted_emit_other options _ log rfl

/-- Specialization of `countRunCompleted_emit_other` to run_started. -/
theorem countRC_emit_run_started (options : Option OrchestrationEventOptions)
    (a b c d : String) (log : List OrchestrationEvent) :
    countRunCompleted (emitEvent options (.run_started a b c d) log) =
      countRunCompleted log :=
  countRunCompleted_emit_other options _ log rfl

/-- `runStepWithEvents` emits only step events, never run_completed. -/
theorem runStepWithEvents_countRC (env : OrchEnv)
    (config : OrchestrationConfig) (taskId : String)
    (options : Option OrchestrationEventOptions) (step : PlanStep)
    (log : List OrchestrationEvent) :
    countRunCompleted (runStepWithEvents env config taskId options step log).2 =
      countRunCompleted log := by
  simp only [runStepWithEvents]
  split
  · split
    · rw [countRC_emit_escalation, countRC_emit_completed,
        countRC_emit_started]
    · rw [countRC_emit_completed, countRC_emit_started]
  · rw [countRC_emit_completed, countRC_emit_started]

/-- The sequential batch loop emits only step events. -/
theorem seqRunSteps_countRC (env : OrchEnv) (config : OrchestrationConfig)
    (taskId : String) (options : Option OrchestrationEventOptions) :
    ∀ (l : List PlanStep) (results : List StepResult)
      (completed : List String) (log : List OrchestrationEvent),
      countRunCompleted
          (seqRunSteps env config taskId options l results completed log).2.2.1 =
        countRunCompleted log := by
  intro l
  induction l with
  | nil => intro results completed log; rfl
  | cons step rest ih =>
      intro results completed log
      simp only [seqRunSteps]
      split
      · exact runStepWithEvents_countRC env config taskId options step log
      · rw [ih, runStepWithEvents_countRC]

/-- Auxiliary: the parallel fold preserves the run_completed count of the
accumulated log, for any accumulator. -/
theorem parRunSteps_countRC_aux (env : OrchEnv) (config : OrchestrationConfig)
    (taskId : String) (options : Option OrchestrationEventOptions) :
    ∀ (batch : List PlanStep) (acc : List StepResult × List OrchestrationEvent),
      countRunCompleted
          (batch.foldl
            (fun acc step =>
              (acc.1 ++
                 [(runStepWithEvents env config taskId options step acc.2).1],
               (runStepWithEvents env config taskId options step acc.2).2))
            acc).2 =
        countRunCompleted acc.2 := by
  intro batch
  induction batch with
  | nil => intro acc; rfl
  | cons step rest ih =>
      intro acc
      rw [List.foldl_cons, ih]
      exact runStepWithEvents_countRC env config taskId options step acc.2

/-- The parallel batch emits only step events. -/
theorem parRunSteps_countRC (env : OrchEnv) (config : OrchestrationConfig)
    (taskId : String) (options : Option OrchestrationEventOptions)
    (batch : List PlanStep) (log : List OrchestrationEvent) :
    countRunCompleted (parRunSteps env config taskId options batch log).2 =
      countRunCompleted log := by
  unfold parRunSteps
  exact parRunSteps_countRC_aux env config taskId options batch ([], log)

/-- The execution loop emits only step events. -/
theorem execLoop_countRC (env : OrchEnv) (config : OrchestrationConfig)
    (taskId : String) (options : Option OrchestrationEventOptions)
    (steps : List PlanStep) :
    ∀ (fuel : Nat) (results : List StepResult) (completed : List String)
      (log : List OrchestrationEvent),
      countRunCompleted
          (execLoop env config taskId options steps fuel results completed
            log).2 =
        countRunCompleted log := by
  intro fuel
  induction fuel with
  | zero => intro results completed log; rfl
  | succ fuel ih =>
      intro results completed log
      simp only [execLoop]
      split
      · split
        · rfl
        · split
          · exact seqRunSteps_countRC env config taskId options _ _ _ _
          · split
            · rw [ih, seqRunSteps_countRC]
            · split
              · rw [parRunSteps_countRC, seqRunSteps_countRC]
              · rw [ih, parRunSteps_countRC, seqRunSteps_countRC]
      · rfl

/-- `executeStepsWithEvents` emits only step events. -/
theorem executeStepsWithEvents_countRC (env : OrchEnv)
    (config : OrchestrationConfig) (taskId : String)
    (options : Option OrchestrationEventOptions) (steps : List PlanStep)
    (log : List OrchestrationEvent) :
    countRunCompleted
        (executeStepsWithEvents env config taskId options steps log).2 =
      countRunCompleted log :=
  execLoop_countRC env config taskId options steps _ _ _ _

/-- The pipeline prefix emits only step events. -/
theorem runPipelinePrefix_countRC (env : OrchEnv)
    (config : OrchestrationConfig) (taskId : String)
    (options : Option OrchestrationEventOptions) (input : OrchestrationInput)
    (log : List OrchestrationEvent) :
    countRunCompleted
        (runPipelinePrefix env config taskId options input log).2 =
      countRunCompleted log := by
  simp only [runPipelinePrefix]
  split
  · exact runStepWithEvents_countRC env config taskId options _ _
  · split
    · exact runStepWithEvents_countRC env config taskId options _ _
    · split
      · rw [runStepWithEvents_countRC, runStepWithEvents_countRC]
      · split
        · rw [runStepWithEvents_countRC, runStepWithEvents_countRC]
        · split
          · rw [runStepWithEvents_countRC, runStepWithEvents_countRC,
              runStepWithEvents_countRC]
          · rw [runStepWithEvents_countRC, runStepWithEvents_countRC,
              runStepWithEvents_countRC]

/-- `finishRun` with a subscribed handler delivers exactly one additional
run_completed event. -/
theorem finishRun_countRC (env : OrchEnv) (reg : TaskRegistryState)
    (taskId : String) (o : OrchestrationEventOptions) (ho : o.onEvent = true)
    (steps : List StepResult) (result : OrchestrationResult)
    (log : List OrchestrationEvent) :
    countRunCompleted
        (finishRun env reg taskId (some o) steps result log).2.2 =
      countRunCompleted log + 1 := by
  simp only [finishRun]
  refine countRunCompleted_emit_rc o ho _ ?_ log
  rfl

/-- `finishRun` returns the result it is given. -/
theorem finishRun_fst (env : OrchEnv) (reg : TaskRegistryState)
    (taskId : String) (options : Option OrchestrationEventOptions)
    (steps : List StepResult) (result : OrchestrationResult)
    (log : List OrchestrationEvent) :
    (finishRun env reg taskId options steps result log).1 = result := rfl

/-- `Orchestrator.run` is the pipeline-prefix dispatch over some task id,
updated registry and run_started-only log. -/
theorem orchestratorRun_cases (env : OrchEnv) (reg : TaskRegistryState)
    (input : OrchestrationInput) :
    ∃ cfg taskId reg1 log0,
      countRunCompleted log0 = 0 ∧
      Orchestrator.run env reg input =
        (match (runPipelinePrefix env cfg taskId input.events input log0).1 with
         | .done steps result =>
             finishRun env reg1 taskId input.events steps result
               (runPipelinePrefix env cfg taskId input.events input log0).2
         | .proceed steps plan =>
             runExecutionPhase env reg1 cfg taskId input.events steps plan
               (runPipelinePrefix env cfg taskId input.events input log0).2) := by
  refine ⟨{ mergeOrchConfig (getDefaultConfig env) input.config with
              abortSignal := some () },
    (TaskRegistry.create reg input env.freshTaskId env.now).1,
    (TaskRegistry.updateStatus
      (TaskRegistry.create reg input env.freshTaskId env.now).2
      (TaskRegistry.create reg input env.freshTaskId env.now).1 .running none
      env.now).2,
    emitEvent input.events
      (.run_started env.now
        (TaskRegistry.create reg input env.freshTaskId env.now).1 input.query
        (input.startResidence.getD "Liku/root")) [],
    ?_, rfl⟩
  rw [countRC_emit_run_started]
  rfl

/-- In an early-terminated pipeline prefix, either the result already has
kind escalation (the supervisor escalated), or every escalated step
result in it belongs to the reserved parser/planner pipeline steps. -/
theorem runPipelinePrefix_done_inv (env : OrchEnv)
    (config : OrchestrationConfig) (taskId : String)
    (options : Option OrchestrationEventOptions) (input : OrchestrationInput)
    (log : List OrchestrationEvent) (steps : List StepResult)
    (result : OrchestrationResult) (log' : List OrchestrationEvent)
    (h : runPipelinePrefix env config taskId options input log =
      (.done steps result, log')) :
    result.kind = "escalation" ∨
      ∀ r ∈ result.steps, r.status = .escalated →
        r.stepId ∈ (["parser", "planner"] : List String) := by
  simp only [runPipelinePrefix] at h
  split at h
  · rename_i hc1
    rw [Prod.mk.injEq, PipelineCont.done.injEq] at h
    obtain ⟨⟨-, hres⟩, -⟩ := h
    subst hres
    right
    intro r hr hesc
    simp only [errorResult, OrchestrationResult.steps,
      List.mem_singleton] at hr
    subst hr
    rw [hc1.1] at hesc
    cases hesc
  · split at h
    · rw [Prod.mk.injEq, PipelineCont.done.injEq] at h
      obtain ⟨⟨-, hres⟩, -⟩ := h
      subst hres
      left
      rfl
    · rename_i hn1 hn2
      split at h
      · rename_i hc3
        rw [Prod.mk.injEq, PipelineCont.done.injEq] at h
        obtain ⟨⟨-, hres⟩, -⟩ := h
        subst hres
        right
        intro r hr hesc
        simp only [errorResult, OrchestrationResult.steps, List.mem_append,
          List.mem_singleton] at hr
        rcases hr with hr | hr
        · subst hr
          exact absurd hesc hn2
        · subst hr
          rw [runStepWithEvents_stepId]
          simp [parserStep]
      · split at h
        · simp at h
        · split at h
          · rename_i hc4
            rw [Prod.mk.injEq, PipelineCont.done.injEq] at h
            obtain ⟨⟨-, hres⟩, -⟩ := h
            subst hres
            right
            intro r hr hesc
            simp only [errorResult, OrchestrationResult.steps,
              List.mem_append, List.mem_singleton] at hr
            rcases hr with (hr | hr) | hr
            · subst hr
              exact absurd hesc hn2
            · subst hr
              rw [runStepWithEvents_stepId]
              simp [parserStep]
            · subst hr
              rw [runStepWithEvents_stepId]
              simp [plannerStep]
          · simp at h

/-- In a pipeline prefix that proceeds to execution, every escalated step
result accumulated so far belongs to the reserved parser/planner steps. -/
theorem runPipelinePrefix_proceed_inv (env : OrchEnv)
    (config : OrchestrationConfig) (taskId : String)
    (options : Option OrchestrationEventOptions) (input : OrchestrationInput)
    (log : List OrchestrationEvent) (steps : List StepResult)
    (plan : PlannerOutput) (log' : List OrchestrationEvent)
    (h : runPipelinePrefix env config taskId options input log =
      (.proceed steps plan, log')) :
    ∀ r ∈ steps, r.status = .escalated →
      r.stepId ∈ (["parser", "planner"] : List String) := by
  simp only [runPipelinePrefix] at h
  split at h
  · simp at h
  · split at h
    · simp at h
    · rename_i hn1 hn2
      split at h
      · simp at h
      · split at h
        · rw [Prod.mk.injEq, PipelineCont.proceed.injEq] at h
          obtain ⟨⟨hsteps, -⟩, -⟩ := h
          subst hsteps
          intro r hr hesc
          simp only [List.mem_append, List.mem_singleton] at hr
          rcases hr with hr | hr
          · subst hr
            exact absurd hesc hn2
          · subst hr
            rw [runStepWithEvents_stepId]
            simp [parserStep]
        · split at h
          · simp at h
          · rw [Prod.mk.injEq, PipelineCont.proceed.injEq] at h
            obtain ⟨⟨hsteps, -⟩, -⟩ := h
            subst hsteps
            intro r hr hesc
            simp only [List.mem_append, List.mem_singleton] at hr
            rcases hr with (hr | hr) | hr
            · subst hr
              exact absurd hesc hn2
            · subst hr
              rw [runStepWithEvents_stepId]
              simp [parserStep]
            · subst hr
              rw [runStepWithEvents_stepId]
              simp [plannerStep]

/-- The execution phase, with a subscribed handler, delivers exactly one
additional run_completed event on every control path. -/
theorem runExecutionPhase_countRC (env : OrchEnv) (reg : TaskRegistryState)
    (config : OrchestrationConfig) (taskId : String)
    (o : OrchestrationEventOptions) (ho : o.onEvent = true)
    (stepsSoFar : List StepResult) (plan : PlannerOutput)
    (log : List OrchestrationEvent) :
    countRunCompleted
        (runExecutionPhase env reg config taskId (some o) stepsSoFar plan
          log).2.2 =
      countRunCompleted log + 1 := by
  simp only [runExecutionPhase]
  split
  · rw [finishRun_countRC env _ taskId o ho]
  · split
    · rw [finishRun_countRC env _ taskId o ho, executeStepsWithEvents_countRC]
    · split
      · rw [finishRun_countRC env _ taskId o ho,
          executeStepsWithEvents_countRC]
      · rw [finishRun_countRC env _ taskId o ho, runStepWithEvents_countRC,
          executeStepsWithEvents_countRC]

/-- In the execution phase, either the run's result has kind escalation,
or none of its escalated step results lies outside the reserved
parser/planner/synthesizer pipeline steps. -/
theorem runExecutionPhase_fst_inv (env : OrchEnv) (reg : TaskRegistryState)
    (config : OrchestrationConfig) (taskId : String)
    (options : Option OrchestrationEventOptions)
    (stepsSoFar : List StepResult) (plan : PlannerOutput)
    (log : List OrchestrationEvent)
    (hpre : ∀ r ∈ stepsSoFar, r.status = .escalated →
      r.stepId ∈ (["parser", "planner"] : List String)) :
    (runExecutionPhase env reg config taskId options stepsSoFar plan
        log).1.kind = "escalation" ∨
      ∀ r ∈ (runExecutionPhase env reg config taskId options stepsSoFar plan
          log).1.steps,
        r.status = .escalated →
          r.stepId ∈ (["parser", "planner", "synthesizer"] : List String) := by
  simp only [runExecutionPhase]
  split
  · right
    rw [finishRun_fst]
    intro r hr hesc
    simp only [OrchestrationResult.steps] at hr
    have := hpre r hr hesc
    simp only [List.mem_cons, List.mem_singleton] at this ⊢
    tauto
  · set exec :=
      (executeStepsWithEvents env config taskId options plan.steps log).1
      with hexec
    split
    · left
      rw [finishRun_fst]
      rfl
    · rename_i hnoesc
      have hnone : ∀ r ∈ exec, r.status ≠ StepStatus.escalated := by
        intro r hr hesc
        refine hnoesc ?_
        have hmem : r ∈ exec.filter
            (fun r => r.status == StepStatus.escalated) :=
          List.mem_filter.mpr ⟨hr, by simp [hesc]⟩
        exact List.length_pos.mpr (fun hn => by rw [hn] at hmem; cases hmem)
      split
      · right
        rw [finishRun_fst]
        simp only [errorResult, OrchestrationResult.steps]
        intro r hr hesc
        rcases List.mem_append.mp hr with hr | hr
        · have := hpre r hr hesc
          simp only [List.mem_cons, List.mem_singleton] at this ⊢
          tauto
        · exact absurd hesc (hnone r hr)
      · right
        rw [finishRun_fst]
        split
        · intro r hr hesc
          simp only [OrchestrationResult.steps, List.mem_append,
            List.mem_singleton] at hr
          rcases hr with (hr | hr) | hr
          · have := hpre r hr hesc
            simp only [List.mem_cons, List.mem_singleton] at this ⊢
            tauto
          · exact absurd hesc (hnone r hr)
          · subst hr
            rw [runStepWithEvents_stepId]
            simp [synthesizerStep]
        · intro r hr hesc
          simp only [OrchestrationResult.steps, List.mem_append,
            List.mem_singleton] at hr
          rcases hr with (hr | hr) | hr
          · have := hpre r hr hesc
            simp only [List.mem_cons, List.mem_singleton] at this ⊢
            tauto
          · exact absurd hesc (hnone r hr)
          · subst hr
            rw [runStepWithEvents_stepId]
            simp [synthesizerStep]

/-- Every run either ends with kind escalation or contains no escalated
step result outside the reserved parser/planner/synthesizer steps. -/
theorem orchestratorRun_noStray (env : OrchEnv) (reg : TaskRegistryState)
    (input : OrchestrationInput) :
    (Orchestrator.run env reg input).1.kind = "escalation" ∨
      ∀ r ∈ (Orchestrator.run env reg input).1.steps,
        r.status = .escalated →
          r.stepId ∈ (["parser", "planner", "synthesizer"] : List String) := by
  obtain ⟨cfg, taskId, reg1, log0, -, hrun⟩ := orchestratorRun_cases env reg
    input
  rcases hp : runPipelinePrefix env cfg taskId input.events input log0
    with ⟨cont, log1⟩
  rw [hp] at hrun
  cases cont with
  | done steps result =>
      dsimp only at hrun
      rw [hrun, finishRun_fst]
      rcases runPipelinePrefix_done_inv env cfg taskId input.events input log0
        steps result log1 hp with hk | hall
      · exact Or.inl hk
      · right
        intro r hr hesc
        have := hall r hr hesc
        simp only [List.mem_cons, List.mem_singleton] at this ⊢
        tauto
  | proceed steps plan =>
      dsimp only at hrun
      rw [hrun]
      exact runExecutionPhase_fst_inv env reg1 cfg taskId input.events steps
        plan log1
        (runPipelinePrefix_proceed_inv env cfg taskId input.events input log0
          steps plan log1 hp)

/-- C7 counterexample: when the parser residence's declared skills make
`checkForEscalation` fire at the parser step (a skill requiring the
ungranted network_access capability with `escalateIfMissing`) and the
plan is supplied externally (empty here), the run's terminal kind is
"ok" even though its steps contain an escalated step result — the
parser's escalation is silently ignored because `run` checks the parser
result only for errors, never for escalation, and the final escalation
check scans only the executed plan steps. -/
theorem C7_counterexample :
    (Orchestrator.run envParserEscalates regEmpty inputEmptyPlan).1.kind =
        "ok" ∧
      ((Orchestrator.run envParserEscalates regEmpty
          inputEmptyPlan).1.steps.map
        (fun r => (r.stepId, r.status))).contains ("parser", .escalated) =
        true := by
  constructor <;> rfl

/-- C7 (amended): if a run's result contains an escalated step result
that does not belong to the reserved pipeline steps "parser", "planner"
or "synthesizer", then the run's terminal kind is "escalation" —
escalation takes precedence over accumulated step errors. (The original
claim fails for parser/planner/synthesizer escalations, which `run`
never checks: see the counterexample.) -/
theorem C7_theorem (env : OrchEnv) (reg : TaskRegistryState)
    (input : OrchestrationInput)
    (h : ∃ r ∈ (Orchestrator.run env reg input).1.steps,
      r.status = .escalated ∧
        r.stepId ∉ (["parser", "planner", "synthesizer"] : List String)) :
    (Orchestrator.run env reg input).1.kind = "escalation" := by
  obtain ⟨r, hr, hesc, hnres⟩ := h
  rcases orchestratorRun_noStray env reg input with hk | hall
  · exact hk
  · exact absurd (hall r hr hesc) hnres

/-- C7 witness: a run whose supervisor step escalates (its bundle
declares a skill requiring the ungranted network_access capability at a
user-privilege residence) satisfies the amended claim's hypothesis, and
its kind is "escalation". -/
theorem C7_witness :
    (Orchestrator.run envSupervisorEscalates regEmpty
        inputUserResidence).1.kind = "escalation" :=
  C7_theorem envSupervisorEscalates regEmpty inputUserResidence (by decide)

/-- C8: for every orchestration run with a subscribed event handler,
exactly one run_completed event is delivered, whatever the run's
outcome — ok, partial, escalation, error (including an injected
mid-pipeline exception via `pipelineThrow`), or cancellation through the
task registry (which only changes the registry, never the emission):
never zero and never more than one. -/
theorem C8_theorem (env : OrchEnv) (reg : TaskRegistryState)
    (input : OrchestrationInput) (o : OrchestrationEventOptions)
    (hev : input.events = some o) (ho : o.onEvent = true) :
    countRunCompleted (Orchestrator.run env reg input).2.2 = 1 := by
  obtain ⟨cfg, taskId, reg1, log0, hlog0, hrun⟩ := orchestratorRun_cases env
    reg input
  rcases hp : runPipelinePrefix env cfg taskId input.events input log0
    with ⟨cont, log1⟩
  have hlog1 : countRunCompleted log1 = 0 := by
    have h2 := runPipelinePrefix_countRC env cfg taskId input.events input log0
    rw [hp] at h2
    simpa [hlog0] using h2
  rw [hp] at hrun
  cases cont with
  | done steps result =>
      dsimp only at hrun
      rw [hrun, hev, finishRun_countRC env reg1 taskId o ho steps result log1,
        hlog1]
  | proceed steps plan =>
      dsimp only at hrun
      rw [hrun, hev,
        runExecutionPhase_countRC env reg1 cfg taskId o ho steps plan log1,
        hlog1]

/-- C8 witness: a concrete subscribed run delivers exactly one
run_completed event. -/
theorem C8_witness :
    countRunCompleted
        (Orchestrator.run simpleEnv regEmpty inputSubscribed).2.2 = 1 :=
  C8_theorem simpleEnv regEmpty inputSubscribed { onEvent := true } rfl rfl
